import Mathlib

/-!
Verification of the blazeKVDB key-value store core against its
specification.  The Rust sources are shallowly embedded: keys are lists
of characters, values are lists of bytes (naturals below 256), the
sharded `MemoryEngine` becomes a pure state-passing step function, the
`bincode`/base64 codecs become executable Lean functions, and the
`DefaultHasher` (an external, opaque but deterministic hash) becomes an
arbitrary function parameter `hash : Key → Nat`.
-/

instance {ε α : Type _} [DecidableEq ε] [DecidableEq α] :
    DecidableEq (Except ε α) := fun a b =>
  match a, b with
  | .ok x, .ok y =>
      if h : x = y then isTrue (congrArg Except.ok h)
      else isFalse fun hh => h (Except.ok.inj hh)
  | .error x, .error y =>
      if h : x = y then isTrue (congrArg Except.error h)
      else isFalse fun hh => h (Except.error.inj hh)
  | .ok _, .error _ => isFalse fun hh => Except.noConfusion hh
  | .error _, .ok _ => isFalse fun hh => Except.noConfusion hh

namespace BlazeKV


/-- A key: UTF-8 string from the Rust code, modelled as its character
list.  Lengths (`len()` in Rust counts bytes) coincide for the ASCII
keys exercised here. -/
abbrev Key := List Char

/-- A value: `Vec<u8>` from the Rust code, each entry a byte. -/
abbrev Value := List Nat

/-- `Shard::estimate_size`: `key.len() + value.len() + 64`. -/
def estimateSize (k : Key) (v : Value) : Nat := k.length + v.length + 64

/-! ### Association-list model of `HashMap<String, Vec<u8>>`

A shard's `HashMap` is modelled by an association list whose keys stay
`Nodup`; `hmGet`/`hmInsert`/`hmRemove` mirror `get`/`insert`/`remove`. -/

/-- `HashMap::get`. -/
def hmGet (k : Key) : List (Key × Value) → Option Value
  | [] => none
  | (k', v) :: rest => if k' = k then some v else hmGet k rest

/-- `HashMap::insert` (replace if present, append otherwise). -/
def hmInsert (k : Key) (v : Value) : List (Key × Value) → List (Key × Value)
  | [] => [(k, v)]
  | (k', v') :: rest =>
      if k' = k then (k, v) :: rest else (k', v') :: hmInsert k v rest

/-- `HashMap::remove` (drops the unique entry for `k`, if any). -/
def hmRemove (k : Key) : List (Key × Value) → List (Key × Value)
  | [] => []
  | (k', v') :: rest => if k' = k then rest else (k', v') :: hmRemove k rest

/-- The keys of an association list. -/
def keysOf (d : List (Key × Value)) : List Key := d.map Prod.fst

/-- Total footprint of a shard's entries, `Σ estimate_size`. -/
def shardFootprint (d : List (Key × Value)) : Nat :=
  (d.map fun kv => estimateSize kv.1 kv.2).sum

/-- Footprint of the entry currently stored under `k`, `0` if absent
(the `old_size` computed inside `MemoryEngine::set`). -/
def oldFootprint (k : Key) (d : List (Key × Value)) : Nat :=
  match hmGet k d with
  | some o => estimateSize k o
  | none => 0

/-! ### The sharded in-memory engine (`src/storage/engine/memory.rs`)

`MemoryEngine` holds a `Vec` of shards, atomic counters and a config.
Sequential execution is modelled by explicit state passing.  The
`DefaultHasher` used by `get_shard_index` is an external deterministic
hash; it is a function parameter `hash` throughout. -/

/-- One `Shard`: its `HashMap` and its `size` counter. -/
structure ShardSt where
  data : List (Key × Value)
  size : Nat
deriving DecidableEq

/-- The engine state: shard vector plus the atomic counters of
`MemoryEngine` (`total_memory`, `total_operations`, `hit_count`,
`miss_count`). -/
structure EngineState where
  shards : List ShardSt
  totalMemory : Nat
  totalOps : Nat
  hits : Nat
  misses : Nat
deriving DecidableEq

/-- `MemoryEngine::new`: `shard_count` empty shards, zeroed counters. -/
def initEngine (n : Nat) : EngineState :=
  { shards := List.replicate n ⟨[], 0⟩
    totalMemory := 0, totalOps := 0, hits := 0, misses := 0 }

/-- `get_shard_index`: `hash(key) % shard_count`. -/
def shardIdx (hash : Key → Nat) (s : EngineState) (k : Key) : Nat :=
  hash k % s.shards.length

/-- `get_shard`: index into the shard vector. -/
def getShard (s : EngineState) (i : Nat) : ShardSt :=
  s.shards.getD i ⟨[], 0⟩

/-- `fetch_add`/`fetch_sub` by a signed delta, as in `update_memory`
(no wrap-around: the counters never underflow on reachable states). -/
def applyDelta (m : Nat) (d : Int) : Nat :=
  if 0 ≤ d then m + d.toNat else m - (-d).toNat

/-- Errors surfaced by the engine (`StorageError`); only the rendered
message matters to the command layer. -/
abbrev StorageErr := String

/-- `MemoryEngine::set`.  Checks the memory limit against the
process-wide counter, then inserts and adjusts both counters. -/
def engSet (hash : Key → Nat) (maxMemory : Nat) (s : EngineState)
    (k : Key) (v : Value) : Except StorageErr EngineState :=
  let size := estimateSize k v
  if s.totalMemory + size > maxMemory then
    .error ("Memory limit exceeded: " ++ toString s.totalMemory ++ " + "
      ++ toString size ++ " > " ++ toString maxMemory)
  else
    let i := shardIdx hash s k
    let sh := getShard s i
    let oldSize := oldFootprint k sh.data
    let data' := hmInsert k v sh.data
    let shSize0 := sh.size + size
    let shSize' := if 0 < oldSize then shSize0 - oldSize else shSize0
    .ok { s with
      shards := s.shards.set i ⟨data', shSize'⟩
      totalMemory := applyDelta s.totalMemory ((size : Int) - (oldSize : Int))
      totalOps := s.totalOps + 1 }

/-- `MemoryEngine::get`.  Always bumps `total_operations`, then a hit
or a miss counter; the shard maps are untouched. -/
def engGet (hash : Key → Nat) (s : EngineState) (k : Key) :
    Option Value × EngineState :=
  let s1 := { s with totalOps := s.totalOps + 1 }
  match hmGet k (getShard s (shardIdx hash s k)).data with
  | some v => (some v, { s1 with hits := s1.hits + 1 })
  | none => (none, { s1 with misses := s1.misses + 1 })

/-- `MemoryEngine::delete`.  Removes the entry if present, adjusting
both counters and `total_operations`; otherwise a pure no-op. -/
def engDelete (hash : Key → Nat) (s : EngineState) (k : Key) :
    Bool × EngineState :=
  let i := shardIdx hash s k
  let sh := getShard s i
  match hmGet k sh.data with
  | some old =>
      let size := estimateSize k old
      (true, { s with
        shards := s.shards.set i ⟨hmRemove k sh.data, sh.size - size⟩
        totalMemory := applyDelta s.totalMemory (-(size : Int))
        totalOps := s.totalOps + 1 })
  | none => (false, s)

/-- `MemoryEngine::exists`: a read-only `contains_key`. -/
def engExists (hash : Key → Nat) (s : EngineState) (k : Key) : Bool :=
  (hmGet k (getShard s (shardIdx hash s k)).data).isSome

/-- `MemoryEngine::scan`: visit every shard in vector order collecting
keys that start with the prefix. -/
def engScan (s : EngineState) (p : Key) : List Key :=
  (s.shards.map fun sh => (keysOf sh.data).filter fun k => p.isPrefixOf k).flatten

/-- `StorageStats`; `hit_rate` (an `f64` in Rust) modelled at the
rational level. -/
structure StatsView where
  totalKeys : Nat
  memoryUsage : Nat
  hitRate : ℚ
  totalOperations : Nat
deriving DecidableEq

/-- `MemoryEngine::stats`, with the hit-rate guard for zero gets. -/
def engStats (s : EngineState) : StatsView :=
  let totalGets := s.hits + s.misses
  { totalKeys := (s.shards.map fun sh => sh.data.length).sum
    memoryUsage := s.totalMemory
    hitRate := if 0 < totalGets then (s.hits : ℚ) / (totalGets : ℚ) else 0
    totalOperations := s.totalOps }

/-- The engine's view of a key, along `get`'s read path. -/
def engineLookup (hash : Key → Nat) (s : EngineState) (k : Key) : Option Value :=
  hmGet k (getShard s (shardIdx hash s k)).data

/-! ### Sequential runs of engine operations -/

/-- One engine call, as issued by the command layer. -/
inductive EngOp
  | setOp (k : Key) (v : Value)
  | delOp (k : Key)
  | getOp (k : Key)
  | existOp (k : Key)
  | scanOp (p : Key)
  | statsOp
deriving DecidableEq

/-- The outcome of one engine call. -/
inductive EngOut
  | okOut
  | rejected (e : StorageErr)
  | deleted (b : Bool)
  | got (o : Option Value)
  | existsOut (b : Bool)
  | keysOut (l : List Key)
  | statsOut (st : StatsView)
deriving DecidableEq

/-- Execute one engine call sequentially. -/
def engStep (hash : Key → Nat) (maxMemory : Nat) (s : EngineState) :
    EngOp → EngineState × EngOut
  | .setOp k v =>
      match engSet hash maxMemory s k v with
      | .ok s' => (s', .okOut)
      | .error e => (s, .rejected e)
  | .delOp k => let r := engDelete hash s k; (r.2, .deleted r.1)
  | .getOp k => let r := engGet hash s k; (r.2, .got r.1)
  | .existOp k => (s, .existsOut (engExists hash s k))
  | .scanOp p => (s, .keysOut (engScan s p))
  | .statsOp => (s, .statsOut (engStats s))

/-- Run a list of engine calls from a state, collecting the outcomes. -/
def engRunFrom (hash : Key → Nat) (maxMemory : Nat) (s : EngineState) :
    List EngOp → EngineState × List EngOut
  | [] => (s, [])
  | op :: rest =>
      let r1 := engStep hash maxMemory s op
      let r2 := engRunFrom hash maxMemory r1.1 rest
      (r2.1, r1.2 :: r2.2)

/-- Run from a freshly constructed engine with `n` shards. -/
def engRun (hash : Key → Nat) (maxMemory n : Nat) (ops : List EngOp) :
    EngineState :=
  (engRunFrom hash maxMemory (initEngine n) ops).1

/-- The outcomes of a run from a fresh engine. -/
def engOutputs (hash : Key → Nat) (maxMemory n : Nat) (ops : List EngOp) :
    List EngOut :=
  (engRunFrom hash maxMemory (initEngine n) ops).2

/-! ### Well-formedness invariant of engine states -/

/-- The data-structure invariant `MemoryEngine` maintains: shard sizes
track their entries' footprints, keys are unique per shard, every entry
sits in the shard its hash selects, and the process-wide counter is the
sum over shards. -/
structure WF (hash : Key → Nat) (s : EngineState) : Prop where
  sizes : ∀ sh ∈ s.shards, sh.size = shardFootprint sh.data
  nodups : ∀ sh ∈ s.shards, (keysOf sh.data).Nodup
  placed : ∀ i, ∀ k ∈ keysOf (getShard s i).data, hash k % s.shards.length = i
  total : s.totalMemory = (s.shards.map fun sh => shardFootprint sh.data).sum

/-! Characterisations of the success and failure paths of `engSet`,
used throughout the invariant proofs. -/

/-- The shard contents an admitted `set` writes back (proof-side
abbreviation of the record built inside `engSet`). -/
def setNewShard (hash : Key → Nat) (s : EngineState) (k : Key) (v : Value) :
    ShardSt :=
  ⟨hmInsert k v (getShard s (shardIdx hash s k)).data,
    if 0 < oldFootprint k (getShard s (shardIdx hash s k)).data
    then (getShard s (shardIdx hash s k)).size + estimateSize k v
      - oldFootprint k (getShard s (shardIdx hash s k)).data
    else (getShard s (shardIdx hash s k)).size + estimateSize k v⟩

/-- The state an admitted `set` produces. -/
def engSetState (hash : Key → Nat) (s : EngineState) (k : Key) (v : Value) :
    EngineState :=
  { s with
    shards := s.shards.set (shardIdx hash s k) (setNewShard hash s k v)
    totalMemory := applyDelta s.totalMemory
      ((estimateSize k v : Int)
        - (oldFootprint k (getShard s (shardIdx hash s k)).data : Int))
    totalOps := s.totalOps + 1 }

/-- The shard contents a successful `delete` writes back. -/
def delNewShard (hash : Key → Nat) (s : EngineState) (k : Key)
    (old : Value) : ShardSt :=
  ⟨hmRemove k (getShard s (shardIdx hash s k)).data,
    (getShard s (shardIdx hash s k)).size - estimateSize k old⟩

/-- The state a successful `delete` produces. -/
def engDelState (hash : Key → Nat) (s : EngineState) (k : Key)
    (old : Value) : EngineState :=
  { s with
    shards := s.shards.set (shardIdx hash s k) (delNewShard hash s k old)
    totalMemory := applyDelta s.totalMemory (-(estimateSize k old : Int))
    totalOps := s.totalOps + 1 }

/-- Total footprint of every entry stored anywhere in the engine. -/
def engTotalFootprint (s : EngineState) : Nat :=
  (s.shards.map fun sh => shardFootprint sh.data).sum

/-! Memory-consumption bound for admission control. -/

/-- The admission footprint of one operation: only a `set` consumes. -/
def opFootprint : EngOp → Nat
  | .setOp k v => estimateSize k v
  | _ => 0

/-- Summed admission footprints of a sequence. -/
def footSum (ops : List EngOp) : Nat := (ops.map opFootprint).sum

/-! Statistics counters as functions of the observed outcomes. -/

/-- Is this outcome a `get` that found the key? -/
def isHit : EngOut → Bool
  | .got (some _) => true
  | _ => false

/-- Is this outcome a `get` that missed? -/
def isMiss : EngOut → Bool
  | .got none => true
  | _ => false

/-- Is this outcome a `get` at all? -/
def isGet : EngOut → Bool
  | .got _ => true
  | _ => false

/-- Is this outcome an accepted mutation: a `set` that was admitted, or
a `delete` that actually removed a key? -/
def isAcceptedMutation : EngOut → Bool
  | .okOut => true
  | .deleted true => true
  | _ => false

/-! ### Base64 (the `base64` crate, `STANDARD` engine: padded, strict) -/

/-- The standard base64 alphabet. -/
def b64Alphabet : List Char :=
  "ABCDEFGHIJKLMNOPQRSTUVWXYZabcdefghijklmnopqrstuvwxyz0123456789+/".data

/-- Sextet to character. -/
def b64EncChar (i : Nat) : Char := b64Alphabet.getD i 'A'

/-- Character back to sextet, `none` for a non-alphabet character. -/
def b64DecChar (c : Char) : Option Nat := b64Alphabet.findIdx? (· = c)

/-- `base64::encode` with padding: three bytes to four characters. -/
def b64Encode : List Nat → List Char
  | [] => []
  | [b0] => [b64EncChar (b0 / 4), b64EncChar (b0 % 4 * 16), '=', '=']
  | [b0, b1] => [b64EncChar (b0 / 4), b64EncChar (b0 % 4 * 16 + b1 / 16),
      b64EncChar (b1 % 16 * 4), '=']
  | b0 :: b1 :: b2 :: rest =>
      b64EncChar (b0 / 4) :: b64EncChar (b0 % 4 * 16 + b1 / 16)
        :: b64EncChar (b1 % 16 * 4 + b2 / 64) :: b64EncChar (b2 % 64)
        :: b64Encode rest

/-- `base64::decode`, strict: length a multiple of four, padding only at
the end, trailing bits must be zero. -/
def b64Decode : List Char → Option (List Nat)
  | [] => some []
  | c0 :: c1 :: c2 :: c3 :: rest =>
      match b64DecChar c0, b64DecChar c1 with
      | some s0, some s1 =>
          if c2 = '=' then
            if c3 = '=' then
              if rest = [] then
                if s1 % 16 = 0 then some [s0 * 4 + s1 / 16] else none
              else none
            else none
          else
            match b64DecChar c2 with
            | some s2 =>
                if c3 = '=' then
                  if rest = [] then
                    if s2 % 4 = 0 then
                      some [s0 * 4 + s1 / 16, s1 % 16 * 16 + s2 / 4]
                    else none
                  else none
                else
                  match b64DecChar c3, b64Decode rest with
                  | some s3, some r =>
                      some ((s0 * 4 + s1 / 16) :: (s1 % 16 * 16 + s2 / 4)
                        :: (s2 % 4 * 64 + s3) :: r)
                  | _, _ => none
            | none => none
      | _, _ => none
  | _ => none

/-! ### String utilities (`str::trim`, `split(' ')`, `split_whitespace`) -/

/-- ASCII whitespace, as `char::is_whitespace` sees it for the ASCII
range (non-ASCII Unicode whitespace is outside the modelled key space). -/
def isWhiteChar (c : Char) : Bool :=
  c = ' ' || c = '\t' || c = '\n' || c = '\r' || c = '\x0b' || c = '\x0c'

/-- `str::trim`. -/
def trimChars (l : List Char) : List Char :=
  ((l.dropWhile isWhiteChar).reverse.dropWhile isWhiteChar).reverse

/-- `str::split(' ')`: splits at every single space, keeping empties. -/
def splitOnSpace : List Char → List (List Char)
  | [] => [[]]
  | c :: rest =>
      if c = ' ' then [] :: splitOnSpace rest
      else
        match splitOnSpace rest with
        | [] => [[c]]
        | w :: ws => (c :: w) :: ws

/-- Accumulator loop for `split_whitespace`. -/
def splitWsAux : List Char → List Char → List (List Char)
  | [], acc => if acc.isEmpty then [] else [acc.reverse]
  | c :: rest, acc =>
      if isWhiteChar c then
        if acc.isEmpty then splitWsAux rest []
        else acc.reverse :: splitWsAux rest []
      else splitWsAux rest (c :: acc)

/-- `str::split_whitespace`: runs of whitespace separate words, no
empty words are produced. -/
def splitWs (l : List Char) : List (List Char) := splitWsAux l []

/-- `Vec<&str>::join(" ")`. -/
def joinSpace : List (List Char) → List Char
  | [] => []
  | [w] => w
  | w :: ws => w ++ ' ' :: joinSpace ws

/-! ### AOL records (`src/storage/persistence/aof.rs`) -/

/-- `Operation`: the AOL record variants. -/
inductive Operation
  | put (key : Key) (value : Value)
  | delete (key : Key)
deriving DecidableEq

/-- `Operation::to_aof_entry` (infallible in the source: both arms
return `Ok`). -/
def toAofEntry : Operation → List Char
  | .put k v => "SET ".data ++ k ++ (' ' :: b64Encode v) ++ ['\n']
  | .delete k => "DEL ".data ++ k ++ ['\n']

/-- `Operation::from_aof_entry`: trim, split on single spaces, then
dispatch on the tag; the base64 payload is `parts[2..].join(" ")`. -/
def fromAofEntry (line : List Char) : Except String Operation :=
  let parts := splitOnSpace (trimChars line)
  match parts with
  | cmd :: key :: rest =>
      if cmd = "SET".data ∧ 1 ≤ rest.length then
        match b64Decode (joinSpace rest) with
        | some v => .ok (.put key v)
        | none => .error "Base64 decode error: invalid payload"
      else if cmd = "DEL".data ∧ rest = [] then .ok (.delete key)
      else .error ("Invalid AOF entry: " ++ String.mk line)
  | _ => .error ("Invalid AOF entry: " ++ String.mk line)

/-! ### Command model and dispatcher (`src/commands/*`) -/

/-- `Command`: the typed command variants (`SetCommand` carries the
reserved `ttl` option). -/
inductive Command
  | get (key : Key)
  | set (key : Key) (value : Value) (ttl : Option Nat)
  | del (key : Key)
  | scan (pfx : Key)
  | exist (key : Key)
  | stats
  | ping
deriving DecidableEq

/-- `CommandResponse`. -/
inductive CommandResponse
  | value (v : Value)
  | ok
  | boolR (b : Bool)
  | keys (l : List Key)
  | statsR (st : StatsView)
  | pong
  | error (msg : String)
deriving DecidableEq

/-- Each handler's `validate`, with the `thiserror`-rendered message the
dispatcher would place in the `Error` response. -/
def validateCommand : Command → Option String
  | .get k =>
      if k = [] then some "Invalid parameter: Key cannot be empty"
      else if k.length > 512 then
        some "Invalid parameter: Key too long (max 512 bytes)"
      else none
  | .set k v _ =>
      if k = [] then some "Invalid parameter: Key cannot be empty"
      else if k.length > 512 then
        some "Invalid parameter: Key too long (max 512 bytes)"
      else if v.length > 10 * 1024 * 1024 then
        some "Invalid parameter: Value too large (max 10MB)"
      else none
  | .del k =>
      if k = [] then some "Missing required parameter: Key cannot be empty"
      else none
  | .scan p =>
      if p = [] then
        some "Missing required parameter: Key prefix cannot be empty"
      else if p.length > 512 then
        some "Invalid parameter: Key prefix too long (max 512 bytes)"
      else none
  | .exist k =>
      if k = [] then some "Missing required parameter: Key cannot be empty"
      else none
  | .stats => none
  | .ping => none

/-- Each handler's `execute`, against the engine. -/
def executeCommand (hash : Key → Nat) (mm : Nat) (cmd : Command)
    (s : EngineState) : CommandResponse × EngineState :=
  match cmd with
  | .get k =>
      let r := engGet hash s k
      match r.1 with
      | some v => (.value v, r.2)
      | none => (.error "Key not found", r.2)
  | .set k v ttl =>
      if ttl.isSome then (.error "TTL not yet supported", s)
      else
        match engSet hash mm s k v with
        | .ok s' => (.ok, s')
        | .error e => (.error ("Persistence error: " ++ e), s)
  | .del k =>
      let r := engDelete hash s k
      (.boolR r.1, r.2)
  | .scan p => (.keys (engScan s p), s)
  | .exist k => (.boolR (engExists hash s k), s)
  | .stats => (.statsR (engStats s), s)
  | .ping => (.pong, s)

/-- `CommandDispatcher::execute`: validate, then execute.  The deployed
dispatcher registers no middleware (`CommandDispatcher::new` only), so
the middleware loops are empty. -/
def dispatchExecute (hash : Key → Nat) (mm : Nat) (cmd : Command)
    (s : EngineState) : CommandResponse × EngineState :=
  match validateCommand cmd with
  | some e => (.error e, s)
  | none => executeCommand hash mm cmd s

/-! ### System state: engine plus AOL (`src/bootstrap.rs`,
`src/server/connection.rs`, `src/main.rs`) -/

/-- Engine plus the sequence of operations submitted to the AOL writer
queue (`AppendOnlyFile::log_operation` on the unbounded channel). -/
structure DBState where
  engine : EngineState
  aolLog : List Operation
deriving DecidableEq

/-- A fresh system: empty engine, empty log. -/
def initDB (n : Nat) : DBState := { engine := initEngine n, aolLog := [] }

/-- `BlazeKVDB::execute` with persistence enabled: `Set`/`Delete` are
submitted to the AOL *before* dispatch (which performs validation), then
the dispatcher runs.  Submission to the unbounded queue cannot fail. -/
def blazeExecute (hash : Key → Nat) (mm : Nat) (db : DBState)
    (cmd : Command) : CommandResponse × DBState :=
  match cmd with
  | .set k v _ =>
      let log1 := db.aolLog ++ [Operation.put k v]
      let r := dispatchExecute hash mm cmd db.engine
      (r.1, { engine := r.2, aolLog := log1 })
  | .del k =>
      let log1 := db.aolLog ++ [Operation.delete k]
      let r := dispatchExecute hash mm cmd db.engine
      (r.1, { engine := r.2, aolLog := log1 })
  | _ =>
      let r := dispatchExecute hash mm cmd db.engine
      (r.1, { engine := r.2, aolLog := db.aolLog })

/-! ### Wire protocol parser (`src/protocol/parser.rs`) -/

/-- `ProtocolParser::parse_command`.  `SET`'s single-token value is
base64-decoded when possible, otherwise taken as raw bytes; a
multi-token value is joined with single spaces and taken as raw bytes
(bytes of ASCII text modelled by `Char.toNat`). -/
def parseCommand (message : List Char) : Except String Command :=
  let msg := trimChars message
  if msg.isEmpty then .error "Invalid command format: Empty command"
  else
    let parts := splitWs msg
    let cmd := (parts.headD []).map Char.toUpper
    if cmd = "GET".data then
      if parts.length < 2 then
        .error "Missing arguments for command: GET requires key"
      else .ok (.get (parts.getD 1 []))
    else if cmd = "SET".data then
      if parts.length < 3 then
        .error "Missing arguments for command: SET requires key and value"
      else
        let key := parts.getD 1 []
        let value :=
          if parts.length = 3 then
            match b64Decode (parts.getD 2 []) with
            | some decoded => decoded
            | none => (parts.getD 2 []).map Char.toNat
          else (joinSpace (parts.drop 2)).map Char.toNat
        .ok (.set key value none)
    else if cmd = "DELETE".data ∨ cmd = "DEL".data then
      if parts.length < 2 then
        .error "Missing arguments for command: DELETE requires key"
      else .ok (.del (parts.getD 1 []))
    else if cmd = "EXIST".data then
      if parts.length < 2 then
        .error "Missing arguments for command: EXIST requires key"
      else .ok (.exist (parts.getD 1 []))
    else if cmd = "SCAN".data then
      .ok (.scan (if 2 ≤ parts.length then parts.getD 1 [] else []))
    else if cmd = "STATS".data then .ok .stats
    else if cmd = "PING".data then .ok .ping
    else .error ("Unknown command: " ++ String.mk cmd)

/-- `ConnectionHandler::process_command` as wired by `main`: the TCP
server is constructed from `kvdb.dispatcher()` alone, so a parsed
command goes straight to `CommandDispatcher::execute`; the persistence
manager (and with it the AOL) is never on this path. -/
def tcpProcessCommand (hash : Key → Nat) (mm : Nat) (db : DBState)
    (message : List Char) : CommandResponse × DBState :=
  match parseCommand message with
  | .ok cmd =>
      let r := dispatchExecute hash mm cmd db.engine
      (r.1, { engine := r.2, aolLog := db.aolLog })
  | .error e => (.error ("Parse error: " ++ e), db)

/-- Pointwise application of one snapshot pair, spec-side. -/
def specApplyPair (m : Key → Option Value) (kv : Key × Value) :
    Key → Option Value :=
  fun q => if kv.1 = q then some kv.2 else m q

/-- Pointwise application of one log operation, spec-side: `Put`
overwrites, `Delete` removes. -/
def specApplyOp (m : Key → Option Value) : Operation → (Key → Option Value)
  | .put k v => fun q => if k = q then some v else m q
  | .delete k => fun q => if k = q then none else m q

/-! ### Recovery (`src/storage/persistence/recovery.rs`) -/

/-- Apply the snapshot's pairs via `engine.set`; any storage error
aborts (`?` in the source). -/
def applySnapshotPairs (hash : Key → Nat) (mm : Nat) :
    List (Key × Value) → EngineState → Except StorageErr EngineState
  | [], s => .ok s
  | (k, v) :: rest, s =>
      match engSet hash mm s k v with
      | .ok s' => applySnapshotPairs hash mm rest s'
      | .error e => .error e

/-- Replay the log: `Put` via `set` (abort on error), `Delete` via
`delete` (infallible). -/
def applyLogOps (hash : Key → Nat) (mm : Nat) :
    List Operation → EngineState → Except StorageErr EngineState
  | [], s => .ok s
  | .put k v :: rest, s =>
      match engSet hash mm s k v with
      | .ok s' => applyLogOps hash mm rest s'
      | .error e => .error e
  | .delete k :: rest, s => applyLogOps hash mm rest ((engDelete hash s k).2)

/-- `RecoveryManager::recover` on an engine that starts empty: restore
the decoded snapshot data (if any), then replay every log operation in
order.  The final `stats` call reads no state that matters here. -/
def recoverRun (hash : Key → Nat) (mm n : Nat)
    (snap : Option (List (Key × Value))) (log : List Operation) :
    Except StorageErr EngineState :=
  match applySnapshotPairs hash mm (snap.getD []) (initEngine n) with
  | .ok s1 => applyLogOps hash mm log s1
  | .error e => .error e

/-- The specification's description of the recovered state (§4.4/§3
invariant 8), for the refinement comparison: the snapshot's key→value
mapping updated by applying every log operation in order, `Put` as
overwrite and `Delete` as removal. -/
def specRecoveredMap (snap : Option (List (Key × Value)))
    (log : List Operation) : Key → Option Value :=
  log.foldl specApplyOp ((snap.getD []).foldl specApplyPair (fun _ => none))

/-! ### Snapshot codec (`src/storage/persistence/snapshot.rs` with
`bincode::serde`, standard configuration) -/

/-- `SnapshotMetadata`.  `version` is the crate version string embedded
at build time; `timestamp` is chrono's `DateTime<Utc>`, which serde
serialises as its RFC 3339 string, so it is carried here as that
string. -/
structure SnapshotMeta where
  version : List Char
  timestamp : List Char
  totalKeys : Nat
  totalSize : Nat
  checksum : Option (List Char)
deriving DecidableEq

/-- `Snapshot`: metadata plus the whole key→value map (`HashMap`
iteration order is whatever the encoder saw). -/
structure SnapshotData where
  metadata : SnapshotMeta
  data : List (Key × Value)
deriving DecidableEq

/-- bincode standard varint encoding of a `u64`/`usize`. -/
def bcVarint (x : Nat) : List Nat :=
  if x < 251 then [x]
  else if x < 2 ^ 16 then [251, x % 256, x / 256 % 256]
  else if x < 2 ^ 32 then
    [252, x % 256, x / 256 % 256, x / 2 ^ 16 % 256, x / 2 ^ 24 % 256]
  else
    [253, x % 256, x / 256 % 256, x / 2 ^ 16 % 256, x / 2 ^ 24 % 256,
      x / 2 ^ 32 % 256, x / 2 ^ 40 % 256, x / 2 ^ 48 % 256, x / 2 ^ 56 % 256]

/-- bincode encoding of a string: varint byte length, then UTF-8 bytes
(ASCII modelled by `Char.toNat`). -/
def bcString (s : List Char) : List Nat :=
  bcVarint s.length ++ s.map Char.toNat

/-- bincode encoding of `Option<String>`: one tag byte then payload. -/
def bcOptString : Option (List Char) → List Nat
  | none => [0]
  | some s => 1 :: bcString s

/-- bincode encoding of `Vec<u8>`: varint length then the raw bytes. -/
def bcBytes (v : Value) : List Nat := bcVarint v.length ++ v

/-- `bincode::serde::encode_to_vec` for `Snapshot`: fields in
declaration order, the map as varint length then key/value pairs. -/
def encodeSnapshot (sn : SnapshotData) : List Nat :=
  bcString sn.metadata.version
    ++ bcString sn.metadata.timestamp
    ++ bcVarint sn.metadata.totalKeys
    ++ bcVarint sn.metadata.totalSize
    ++ bcOptString sn.metadata.checksum
    ++ bcVarint sn.data.length
    ++ (sn.data.map fun kv => bcString kv.1 ++ bcBytes kv.2).flatten

/-- Varint decoder; returns the value and the remaining bytes. -/
def bcReadVarint : List Nat → Option (Nat × List Nat)
  | [] => none
  | b :: rest =>
      if b < 251 then some (b, rest)
      else if b = 251 then
        match rest with
        | x0 :: x1 :: r => some (x0 + x1 * 256, r)
        | _ => none
      else if b = 252 then
        match rest with
        | x0 :: x1 :: x2 :: x3 :: r =>
            some (x0 + x1 * 256 + x2 * 2 ^ 16 + x3 * 2 ^ 24, r)
        | _ => none
      else if b = 253 then
        match rest with
        | x0 :: x1 :: x2 :: x3 :: x4 :: x5 :: x6 :: x7 :: r =>
            some (x0 + x1 * 256 + x2 * 2 ^ 16 + x3 * 2 ^ 24 + x4 * 2 ^ 32
              + x5 * 2 ^ 40 + x6 * 2 ^ 48 + x7 * 2 ^ 56, r)
        | _ => none
      else none

/-- Read `n` raw bytes. -/
def bcReadBytes : Nat → List Nat → Option (List Nat × List Nat)
  | 0, bs => some ([], bs)
  | _ + 1, [] => none
  | n + 1, b :: bs =>
      match bcReadBytes n bs with
      | some (taken, rest) => some (b :: taken, rest)
      | none => none

/-- Read a string: varint length then that many bytes as characters. -/
def bcReadString (bs : List Nat) : Option (List Char × List Nat) :=
  match bcReadVarint bs with
  | some (len, r1) =>
      match bcReadBytes len r1 with
      | some (raw, r2) => some (raw.map Char.ofNat, r2)
      | none => none
  | none => none

/-- Read the map entries. -/
def bcReadPairs : Nat → List Nat → Option (List (Key × Value) × List Nat)
  | 0, bs => some ([], bs)
  | n + 1, bs =>
      match bcReadString bs with
      | some (k, r1) =>
          match bcReadVarint r1 with
          | some (vlen, r2) =>
              match bcReadBytes vlen r2 with
              | some (v, r3) =>
                  match bcReadPairs n r3 with
                  | some (ps, r4) => some ((k, v) :: ps, r4)
                  | none => none
              | none => none
          | none => none
      | none => none

/-- `Snapshotter::load_snapshot`'s decoding step,
`bincode::serde::decode_from_slice::<Snapshot>`: decode the fields in
order.  No comparison of the embedded `version` against anything occurs
anywhere in the loader. -/
def decodeSnapshot (bs : List Nat) : Except String SnapshotData :=
  match bcReadString bs with
  | some (version, r1) =>
      match bcReadString r1 with
      | some (timestamp, r2) =>
          match bcReadVarint r2 with
          | some (totalKeys, r3) =>
              match bcReadVarint r3 with
              | some (totalSize, r4) =>
                  match r4 with
                  | 0 :: r5 =>
                      match bcReadVarint r5 with
                      | some (len, r6) =>
                          match bcReadPairs len r6 with
                          | some (ps, _) =>
                              .ok ⟨⟨version, timestamp, totalKeys, totalSize,
                                none⟩, ps⟩
                          | none => .error "Deserialization error: map"
                      | none => .error "Deserialization error: map length"
                  | 1 :: r5 =>
                      match bcReadString r5 with
                      | some (ck, r6) =>
                          match bcReadVarint r6 with
                          | some (len, r7) =>
                              match bcReadPairs len r7 with
                              | some (ps, _) =>
                                  .ok ⟨⟨version, timestamp, totalKeys,
                                    totalSize, some ck⟩, ps⟩
                              | none => .error "Deserialization error: map"
                          | none => .error "Deserialization error: map length"
                      | none => .error "Deserialization error: checksum"
                  | _ => .error "Deserialization error: option tag"
              | none => .error "Deserialization error: total_size"
          | none => .error "Deserialization error: total_keys"
      | none => .error "Deserialization error: timestamp"
  | none => .error "Deserialization error: version"

/-! ### Concrete instantiations for closed evaluations

`DefaultHasher` is an opaque deterministic hash; universal theorems
quantify over the hash function, and closed evaluations fix this
stand-in. -/

/-- A concrete stand-in hash for closed evaluations. -/
def demoHash (k : Key) : Nat := k.foldl (fun a c => a * 31 + c.toNat) 7

/-- `StorageConfig::default().max_memory`: 100 MiB. -/
def defaultMaxMemory : Nat := 1024 * 1024 * 100

/-- `StorageConfig::default().shard_count`. -/
def defaultShardCount : Nat := 16

/-- The key carried by an `Operation`. -/
def opKey : Operation → Key
  | .put k _ => k
  | .delete k => k

/-- The value carried by a `Put`, `none` for a `Delete`. -/
def opValue : Operation → Option Value
  | .put _ v => some v
  | .delete _ => none

/-- A well-formed snapshot whose embedded version is far newer than the
crate will ever be — the probe for version checking in the loader. -/
def snapNewVersion : SnapshotData :=
  ⟨⟨"999.999.999".data, "2026-02-03T04:05:06Z".data, 1, 4, none⟩,
    [("a".data, [1, 2, 3])]⟩

/-- Sample snapshot contents for a concrete recovery run. -/
def snapEx : Option (List (Key × Value)) :=
  some [("a".data, [1]), ("b".data, [2])]

/-- Sample log for a concrete recovery run. -/
def logEx : List Operation :=
  [.put "c".data [3], .delete "a".data]

/-- The engine state the sample recovery actually produces. -/
def recResult : EngineState :=
  match recoverRun demoHash 1000 4 snapEx logEx with
  | .ok s => s
  | .error _ => initEngine 0

/-! ## Lemmas and claim theorems -/

@[simp] theorem keysOf_nil : keysOf [] = [] := rfl

@[simp] theorem keysOf_cons (k : Key) (v : Value) (d : List (Key × Value)) :
    keysOf ((k, v) :: d) = k :: keysOf d := rfl

@[simp] theorem shardFootprint_nil : shardFootprint [] = 0 := rfl

@[simp] theorem shardFootprint_cons (k : Key) (v : Value) (d : List (Key × Value)) :
    shardFootprint ((k, v) :: d) = estimateSize k v + shardFootprint d := by
  simp [shardFootprint]

theorem oldFootprint_of_some {k : Key} {d : List (Key × Value)} {o : Value}
    (h : hmGet k d = some o) : oldFootprint k d = estimateSize k o := by
  simp [oldFootprint, h]

theorem oldFootprint_of_none {k : Key} {d : List (Key × Value)}
    (h : hmGet k d = none) : oldFootprint k d = 0 := by
  simp [oldFootprint, h]

theorem hmGet_insert (k q : Key) (v : Value) (d : List (Key × Value)) :
    hmGet q (hmInsert k v d) = if k = q then some v else hmGet q d := by
  induction d with
  | nil => by_cases h : k = q <;> simp [hmInsert, hmGet, h]
  | cons e rest ih =>
      obtain ⟨k', v'⟩ := e
      by_cases hk : k' = k
      · subst hk
        by_cases hq : k' = q <;> simp [hmInsert, hmGet, hq]
      · by_cases hq : k' = q
        · subst hq
          have : ¬ k = k' := fun h => hk h.symm
          simp [hmInsert, hmGet, hk, this]
        · simp [hmInsert, hmGet, hk, hq, ih]

theorem hmGet_remove_ne (k q : Key) (d : List (Key × Value)) (h : k ≠ q) :
    hmGet q (hmRemove k d) = hmGet q d := by
  induction d with
  | nil => simp [hmRemove]
  | cons e rest ih =>
      obtain ⟨k', v'⟩ := e
      by_cases hk : k' = k
      · subst hk
        have : ¬ k' = q := fun hq => h (hq ▸ rfl)
        simp [hmRemove, hmGet, this]
      · simp [hmRemove, hmGet, hk, ih]

theorem keysOf_remove_sub (k : Key) (d : List (Key × Value)) :
    ∀ q, q ∈ keysOf (hmRemove k d) → q ∈ keysOf d := by
  induction d with
  | nil => simp [hmRemove]
  | cons e rest ih =>
      intro q hq
      obtain ⟨k', v'⟩ := e
      by_cases hk : k' = k
      · subst hk
        simp only [hmRemove, if_pos rfl] at hq
        simp [keysOf] at hq ⊢
        exact Or.inr hq
      · simp only [hmRemove, if_neg hk] at hq
        simp [keysOf] at hq ⊢
        rcases hq with h | h
        · exact Or.inl h
        · exact Or.inr (by simpa [keysOf] using ih q (by simpa [keysOf] using h))

theorem hmGet_remove_self (k : Key) (d : List (Key × Value))
    (hd : (keysOf d).Nodup) : hmGet k (hmRemove k d) = none := by
  induction d with
  | nil => simp [hmRemove, hmGet]
  | cons e rest ih =>
      obtain ⟨k', v'⟩ := e
      simp only [keysOf, List.map_cons, List.nodup_cons] at hd
      by_cases hk : k' = k
      · subst hk
        simp only [hmRemove, if_pos rfl]
        cases hg : hmGet k' rest with
        | none => exact hg
        | some v =>
            exfalso
            apply hd.1
            clear ih hd
            induction rest with
            | nil => simp [hmGet] at hg
            | cons e2 r2 ih2 =>
                obtain ⟨k2, v2⟩ := e2
                by_cases h2 : k2 = k'
                · subst h2; simp [keysOf]
                · simp only [hmGet, if_neg h2] at hg
                  simp [keysOf]
                  exact Or.inr (by simpa [keysOf] using ih2 hg)
      · simp only [hmRemove, if_neg hk, hmGet, if_neg hk]
        exact ih hd.2

theorem hmGet_none_of_not_mem (k : Key) (d : List (Key × Value))
    (h : k ∉ keysOf d) : hmGet k d = none := by
  induction d with
  | nil => rfl
  | cons e rest ih =>
      obtain ⟨k', v'⟩ := e
      rw [keysOf_cons, List.mem_cons] at h
      push_neg at h
      have hne : ¬ k' = k := fun he => h.1 he.symm
      simp [hmGet, hne, ih h.2]

theorem mem_keysOf_of_get_some {k : Key} {d : List (Key × Value)} {o : Value}
    (h : hmGet k d = some o) : k ∈ keysOf d := by
  by_contra hmem
  rw [hmGet_none_of_not_mem k d hmem] at h
  exact Option.noConfusion h

theorem hmGet_isSome_of_mem (k : Key) (d : List (Key × Value))
    (h : k ∈ keysOf d) : (hmGet k d).isSome := by
  induction d with
  | nil => simp [keysOf] at h
  | cons e rest ih =>
      obtain ⟨k', v'⟩ := e
      by_cases hk : k' = k
      · simp [hmGet, hk]
      · simp [keysOf] at h
        rcases h with h | h
        · exact absurd h.symm hk
        · simp [hmGet, hk]
          exact ih (by simpa [keysOf] using h)

theorem keysOf_insert_of_get_some (k : Key) (v : Value) (d : List (Key × Value))
    (h : (hmGet k d).isSome) : keysOf (hmInsert k v d) = keysOf d := by
  induction d with
  | nil => simp [hmGet] at h
  | cons e rest ih =>
      obtain ⟨k', v'⟩ := e
      by_cases hk : k' = k
      · subst hk; simp [hmInsert, keysOf]
      · simp only [hmGet, if_neg hk] at h
        simp [hmInsert, hk, keysOf] at ih ⊢
        exact ih h

theorem keysOf_insert_of_get_none (k : Key) (v : Value) (d : List (Key × Value))
    (h : hmGet k d = none) : keysOf (hmInsert k v d) = keysOf d ++ [k] := by
  induction d with
  | nil => simp [hmInsert, keysOf]
  | cons e rest ih =>
      obtain ⟨k', v'⟩ := e
      by_cases hk : k' = k
      · subst hk; simp [hmGet] at h
      · simp only [hmGet, if_neg hk] at h
        simp [hmInsert, hk, keysOf] at ih ⊢
        exact ih h

theorem nodup_keysOf_insert (k : Key) (v : Value) (d : List (Key × Value))
    (hd : (keysOf d).Nodup) : (keysOf (hmInsert k v d)).Nodup := by
  cases hg : hmGet k d with
  | some w => rw [keysOf_insert_of_get_some k v d (by simp [hg])]; exact hd
  | none =>
      rw [keysOf_insert_of_get_none k v d hg]
      have hnm : k ∉ keysOf d := by
        intro hmem
        have := hmGet_isSome_of_mem k d hmem
        simp [hg] at this
      simp [List.nodup_append, hd, hnm]

theorem nodup_keysOf_remove (k : Key) (d : List (Key × Value))
    (hd : (keysOf d).Nodup) : (keysOf (hmRemove k d)).Nodup := by
  induction d with
  | nil => simp [hmRemove, keysOf]
  | cons e rest ih =>
      obtain ⟨k', v'⟩ := e
      simp only [keysOf, List.map_cons, List.nodup_cons] at hd
      by_cases hk : k' = k
      · subst hk; simpa [hmRemove, keysOf] using hd.2
      · simp only [hmRemove, if_neg hk, keysOf, List.map_cons, List.nodup_cons]
        refine ⟨fun hmem => hd.1 (keysOf_remove_sub k rest k' hmem), ?_⟩
        exact ih hd.2

/-- Footprint change of an insert, phrased without truncated subtraction:
new footprint + old entry's footprint = old footprint + new entry's. -/
theorem shardFootprint_insert (k : Key) (v : Value) (d : List (Key × Value)) :
    shardFootprint (hmInsert k v d) + oldFootprint k d =
    shardFootprint d + estimateSize k v := by
  induction d with
  | nil => simp [hmInsert, oldFootprint, hmGet]
  | cons e rest ih =>
      obtain ⟨k', v'⟩ := e
      by_cases hk : k' = k
      · subst hk
        simp [hmInsert, oldFootprint, hmGet]
        omega
      · have hof : oldFootprint k ((k', v') :: rest) = oldFootprint k rest := by
          simp [oldFootprint, hmGet, hk]
        simp only [hmInsert, if_neg hk, shardFootprint_cons, hof]
        omega

/-- Footprint change of a remove. -/
theorem shardFootprint_remove (k : Key) (d : List (Key × Value)) :
    shardFootprint (hmRemove k d) + oldFootprint k d = shardFootprint d := by
  induction d with
  | nil => simp [hmRemove, oldFootprint, hmGet]
  | cons e rest ih =>
      obtain ⟨k', v'⟩ := e
      by_cases hk : k' = k
      · subst hk
        simp [hmRemove, oldFootprint, hmGet]
        omega
      · have hof : oldFootprint k ((k', v') :: rest) = oldFootprint k rest := by
          simp [oldFootprint, hmGet, hk]
        simp only [hmRemove, if_neg hk, shardFootprint_cons, hof]
        omega

theorem mem_keysOf_insert (k q : Key) (v : Value) (d : List (Key × Value)) :
    q ∈ keysOf (hmInsert k v d) ↔ q = k ∨ q ∈ keysOf d := by
  cases hg : hmGet k d with
  | some w =>
      rw [keysOf_insert_of_get_some k v d (by simp [hg])]
      constructor
      · exact Or.inr
      · rintro (rfl | h)
        · exact mem_keysOf_of_get_some hg
        · exact h
  | none =>
      rw [keysOf_insert_of_get_none k v d hg]
      simp [or_comm]

theorem wf_init (hash : Key → Nat) (n : Nat) : WF hash (initEngine n) := by
  refine ⟨?_, ?_, ?_, ?_⟩
  · intro sh hm
    rw [List.eq_of_mem_replicate hm]
    simp
  · intro sh hm
    rw [List.eq_of_mem_replicate hm]
    simp
  · intro i k hk
    exfalso
    revert hk
    unfold getShard initEngine
    rcases Nat.lt_or_ge i n with h | h
    · rw [List.getD_eq_getElem _ _ (by simp only [List.length_replicate]; exact h)]
      simp
    · rw [List.getD_eq_default _ _ (by simp; omega)]
      simp
  · simp only [initEngine]
    induction n with
    | zero => simp
    | succ m ih => simpa [List.replicate_succ] using ih

theorem getD_set_self {α : Type _} (l : List α) (i : Nat) (x d : α)
    (h : i < l.length) : (l.set i x).getD i d = x := by
  induction l generalizing i with
  | nil => simp at h
  | cons a rest ih =>
      cases i with
      | zero => simp [List.set]
      | succ j =>
          simp only [List.set, List.getD_cons_succ]
          exact ih j (by simpa using h)

theorem getD_set_ne {α : Type _} (l : List α) (i j : Nat) (x d : α)
    (h : i ≠ j) : (l.set i x).getD j d = l.getD j d := by
  induction l generalizing i j with
  | nil => simp [List.set]
  | cons a rest ih =>
      cases i with
      | zero =>
          cases j with
          | zero => exact absurd rfl h
          | succ j' => simp [List.set]
      | succ i' =>
          cases j with
          | zero => simp [List.set]
          | succ j' =>
              simp only [List.set, List.getD_cons_succ]
              exact ih i' j' (fun he => h (by simp [he]))

theorem sum_map_set {α : Type _} (f : α → Nat) (l : List α) (i : Nat)
    (x d : α) (h : i < l.length) :
    ((l.set i x).map f).sum + f (l.getD i d) = (l.map f).sum + f x := by
  induction l generalizing i with
  | nil => simp at h
  | cons a rest ih =>
      cases i with
      | zero => simp [List.set]; omega
      | succ j =>
          simp only [List.set, List.map_cons, List.sum_cons, List.getD_cons_succ]
          have := ih j (by simpa using h)
          omega

theorem getShard_mem (s : EngineState) (i : Nat) (h : i < s.shards.length) :
    getShard s i ∈ s.shards := by
  unfold getShard
  rw [List.getD_eq_getElem _ _ h]
  exact List.getElem_mem h

theorem oldFootprint_le (k : Key) (d : List (Key × Value)) :
    oldFootprint k d ≤ shardFootprint d := by
  have := shardFootprint_remove k d
  omega

theorem f_getD_le_sum {α : Type _} (f : α → Nat) (l : List α) (i : Nat)
    (d : α) (h : i < l.length) : f (l.getD i d) ≤ (l.map f).sum := by
  induction l generalizing i with
  | nil => simp at h
  | cons a rest ih =>
      cases i with
      | zero => simp
      | succ j =>
          simp only [List.getD_cons_succ, List.map_cons, List.sum_cons]
          have := ih j (by simpa using h)
          omega

theorem shardFootprint_le_sum (s : EngineState) (i : Nat)
    (h : i < s.shards.length) :
    shardFootprint (getShard s i).data ≤
      (s.shards.map fun sh => shardFootprint sh.data).sum := by
  exact f_getD_le_sum (fun sh => shardFootprint sh.data) s.shards i ⟨[], 0⟩ h

theorem engSet_eq_ok (hash : Key → Nat) (mm : Nat) (s : EngineState)
    (k : Key) (v : Value) (h : s.totalMemory + estimateSize k v ≤ mm) :
    engSet hash mm s k v = .ok (engSetState hash s k v) := by
  simp only [engSet, engSetState, setNewShard]
  rw [if_neg (by omega)]

theorem engSet_eq_err (hash : Key → Nat) (mm : Nat) (s : EngineState)
    (k : Key) (v : Value) (h : mm < s.totalMemory + estimateSize k v) :
    ∃ e, engSet hash mm s k v = .error e := by
  simp only [engSet]
  rw [if_pos (by omega)]
  exact ⟨_, rfl⟩

theorem engSet_ok_inv (hash : Key → Nat) (mm : Nat) (s s' : EngineState)
    (k : Key) (v : Value) (h : engSet hash mm s k v = .ok s') :
    s.totalMemory + estimateSize k v ≤ mm ∧ s' = engSetState hash s k v := by
  by_cases hle : s.totalMemory + estimateSize k v ≤ mm
  · rw [engSet_eq_ok hash mm s k v hle] at h
    exact ⟨hle, (Except.ok.injEq _ _ ▸ h).symm⟩
  · obtain ⟨e, he⟩ := engSet_eq_err hash mm s k v (by omega)
    rw [he] at h
    exact Except.noConfusion h

theorem engDelete_eq_some (hash : Key → Nat) (s : EngineState) (k : Key)
    (old : Value)
    (h : hmGet k (getShard s (shardIdx hash s k)).data = some old) :
    engDelete hash s k = (true, engDelState hash s k old) := by
  simp only [engDelete, engDelState, delNewShard, h]

theorem engDelete_eq_none (hash : Key → Nat) (s : EngineState) (k : Key)
    (h : hmGet k (getShard s (shardIdx hash s k)).data = none) :
    engDelete hash s k = (false, s) := by
  simp only [engDelete, h]

theorem applyDelta_sub (m a b : Nat) (h : b ≤ m + a) :
    applyDelta m ((a : Int) - (b : Int)) = m + a - b := by
  unfold applyDelta
  split <;> omega

theorem applyDelta_neg (m b : Nat) :
    applyDelta m (-(b : Int)) = m - b := by
  unfold applyDelta
  split <;> omega

theorem length_engSetState (hash : Key → Nat) (s : EngineState) (k : Key)
    (v : Value) : (engSetState hash s k v).shards.length = s.shards.length := by
  simp [engSetState]

theorem length_engDelState (hash : Key → Nat) (s : EngineState) (k : Key)
    (old : Value) :
    (engDelState hash s k old).shards.length = s.shards.length := by
  simp [engDelState]

theorem getShard_engSetState_self (hash : Key → Nat) (s : EngineState)
    (k : Key) (v : Value) (hn : 0 < s.shards.length) :
    getShard (engSetState hash s k v) (shardIdx hash s k) =
      setNewShard hash s k v := by
  unfold getShard engSetState
  exact getD_set_self _ _ _ _ (Nat.mod_lt _ hn)

theorem getShard_engSetState_ne (hash : Key → Nat) (s : EngineState)
    (k : Key) (v : Value) (j : Nat) (h : j ≠ shardIdx hash s k) :
    getShard (engSetState hash s k v) j = getShard s j := by
  unfold getShard engSetState
  exact getD_set_ne _ _ _ _ _ (fun he => h he.symm)

theorem getShard_engDelState_self (hash : Key → Nat) (s : EngineState)
    (k : Key) (old : Value) (hn : 0 < s.shards.length) :
    getShard (engDelState hash s k old) (shardIdx hash s k) =
      delNewShard hash s k old := by
  unfold getShard engDelState
  exact getD_set_self _ _ _ _ (Nat.mod_lt _ hn)

theorem getShard_engDelState_ne (hash : Key → Nat) (s : EngineState)
    (k : Key) (old : Value) (j : Nat) (h : j ≠ shardIdx hash s k) :
    getShard (engDelState hash s k old) j = getShard s j := by
  unfold getShard engDelState
  exact getD_set_ne _ _ _ _ _ (fun he => h he.symm)

theorem wf_engSetState (hash : Key → Nat) (s : EngineState) (k : Key)
    (v : Value) (hn : 0 < s.shards.length) (hwf : WF hash s) :
    WF hash (engSetState hash s k v) := by
  have hi : shardIdx hash s k < s.shards.length := Nat.mod_lt _ hn
  have hshmem : getShard s (shardIdx hash s k) ∈ s.shards :=
    getShard_mem s _ hi
  have hsize : (getShard s (shardIdx hash s k)).size =
      shardFootprint (getShard s (shardIdx hash s k)).data :=
    hwf.sizes _ hshmem
  have hins := shardFootprint_insert k v (getShard s (shardIdx hash s k)).data
  have hold := oldFootprint_le k (getShard s (shardIdx hash s k)).data
  refine ⟨?_, ?_, ?_, ?_⟩
  · intro sh' hm
    rcases List.mem_or_eq_of_mem_set hm with hm' | rfl
    · exact hwf.sizes sh' hm'
    · simp only [setNewShard]
      split <;> omega
  · intro sh' hm
    rcases List.mem_or_eq_of_mem_set hm with hm' | rfl
    · exact hwf.nodups sh' hm'
    · exact nodup_keysOf_insert k v _ (hwf.nodups _ hshmem)
  · intro j q hq
    have hlen : (engSetState hash s k v).shards.length = s.shards.length :=
      length_engSetState hash s k v
    rw [hlen]
    by_cases hji : j = shardIdx hash s k
    · subst hji
      rw [getShard_engSetState_self hash s k v hn] at hq
      simp only [setNewShard] at hq
      rcases (mem_keysOf_insert k q v _).mp hq with rfl | hmem
      · rfl
      · exact hwf.placed _ q hmem
    · rw [getShard_engSetState_ne hash s k v j hji] at hq
      exact hwf.placed j q hq
  · simp only [engSetState]
    have hsum := sum_map_set (fun sh => shardFootprint sh.data) s.shards
      (shardIdx hash s k) (setNewShard hash s k v) ⟨[], 0⟩ hi
    have htot := hwf.total
    have hle2 := shardFootprint_le_sum s (shardIdx hash s k) hi
    rw [applyDelta_sub _ _ _ (by omega)]
    have hdata : (setNewShard hash s k v).data =
        hmInsert k v (getShard s (shardIdx hash s k)).data := rfl
    simp only [hdata] at hsum
    have hgd : s.shards.getD (shardIdx hash s k) ⟨[], 0⟩ =
        getShard s (shardIdx hash s k) := rfl
    simp only [hgd] at hsum
    omega

theorem wf_engDelState (hash : Key → Nat) (s : EngineState) (k : Key)
    (old : Value) (hn : 0 < s.shards.length) (hwf : WF hash s)
    (hget : hmGet k (getShard s (shardIdx hash s k)).data = some old) :
    WF hash (engDelState hash s k old) := by
  have hi : shardIdx hash s k < s.shards.length := Nat.mod_lt _ hn
  have hshmem : getShard s (shardIdx hash s k) ∈ s.shards :=
    getShard_mem s _ hi
  have hsize : (getShard s (shardIdx hash s k)).size =
      shardFootprint (getShard s (shardIdx hash s k)).data :=
    hwf.sizes _ hshmem
  have hrem := shardFootprint_remove k (getShard s (shardIdx hash s k)).data
  have holdf : oldFootprint k (getShard s (shardIdx hash s k)).data =
      estimateSize k old := oldFootprint_of_some hget
  refine ⟨?_, ?_, ?_, ?_⟩
  · intro sh' hm
    rcases List.mem_or_eq_of_mem_set hm with hm' | rfl
    · exact hwf.sizes sh' hm'
    · simp only [delNewShard]
      omega
  · intro sh' hm
    rcases List.mem_or_eq_of_mem_set hm with hm' | rfl
    · exact hwf.nodups sh' hm'
    · exact nodup_keysOf_remove k _ (hwf.nodups _ hshmem)
  · intro j q hq
    have hlen : (engDelState hash s k old).shards.length = s.shards.length :=
      length_engDelState hash s k old
    rw [hlen]
    by_cases hji : j = shardIdx hash s k
    · subst hji
      rw [getShard_engDelState_self hash s k old hn] at hq
      simp only [delNewShard] at hq
      exact hwf.placed _ q (keysOf_remove_sub k _ q hq)
    · rw [getShard_engDelState_ne hash s k old j hji] at hq
      exact hwf.placed j q hq
  · simp only [engDelState]
    have hsum := sum_map_set (fun sh => shardFootprint sh.data) s.shards
      (shardIdx hash s k) (delNewShard hash s k old) ⟨[], 0⟩ hi
    have htot := hwf.total
    have hle2 := shardFootprint_le_sum s (shardIdx hash s k) hi
    rw [applyDelta_neg]
    have hdata : (delNewShard hash s k old).data =
        hmRemove k (getShard s (shardIdx hash s k)).data := rfl
    simp only [hdata] at hsum
    have hgd : s.shards.getD (shardIdx hash s k) ⟨[], 0⟩ =
        getShard s (shardIdx hash s k) := rfl
    simp only [hgd] at hsum
    omega

/-! Step- and run-level preservation of the invariant. -/

theorem engGet_snd (hash : Key → Nat) (s : EngineState) (k : Key) :
    (engGet hash s k).2 =
      match hmGet k (getShard s (shardIdx hash s k)).data with
      | some _ => { s with totalOps := s.totalOps + 1, hits := s.hits + 1 }
      | none => { s with totalOps := s.totalOps + 1, misses := s.misses + 1 } := by
  unfold engGet
  cases hmGet k (getShard s (shardIdx hash s k)).data <;> rfl

theorem wf_fields {hash : Key → Nat} {s s' : EngineState} (hwf : WF hash s)
    (hsh : s'.shards = s.shards) (hm : s'.totalMemory = s.totalMemory) :
    WF hash s' := by
  refine ⟨?_, ?_, ?_, ?_⟩
  · rw [hsh]; exact hwf.sizes
  · rw [hsh]; exact hwf.nodups
  · intro i k hk
    rw [hsh]
    refine hwf.placed i k ?_
    have : getShard s' i = getShard s i := by unfold getShard; rw [hsh]
    rwa [this] at hk
  · rw [hsh, hm]; exact hwf.total

theorem wf_engStep (hash : Key → Nat) (mm : Nat) (s : EngineState)
    (op : EngOp) (hn : 0 < s.shards.length) (hwf : WF hash s) :
    WF hash (engStep hash mm s op).1 := by
  cases op with
  | setOp k v =>
      simp only [engStep]
      cases hset : engSet hash mm s k v with
      | ok s' =>
          obtain ⟨-, rfl⟩ := engSet_ok_inv hash mm s s' k v hset
          exact wf_engSetState hash s k v hn hwf
      | error e => exact hwf
  | delOp k =>
      simp only [engStep]
      cases hg : hmGet k (getShard s (shardIdx hash s k)).data with
      | some old =>
          rw [engDelete_eq_some hash s k old hg]
          exact wf_engDelState hash s k old hn hwf hg
      | none =>
          rw [engDelete_eq_none hash s k hg]
          exact hwf
  | getOp k =>
      simp only [engStep]
      rw [engGet_snd]
      cases hmGet k (getShard s (shardIdx hash s k)).data with
      | some v => exact wf_fields hwf rfl rfl
      | none => exact wf_fields hwf rfl rfl
  | existOp k => exact hwf
  | scanOp p => exact hwf
  | statsOp => exact hwf

theorem length_engStep (hash : Key → Nat) (mm : Nat) (s : EngineState)
    (op : EngOp) : (engStep hash mm s op).1.shards.length = s.shards.length := by
  cases op with
  | setOp k v =>
      simp only [engStep]
      cases hset : engSet hash mm s k v with
      | ok s' =>
          obtain ⟨-, rfl⟩ := engSet_ok_inv hash mm s s' k v hset
          exact length_engSetState hash s k v
      | error e => rfl
  | delOp k =>
      simp only [engStep]
      cases hg : hmGet k (getShard s (shardIdx hash s k)).data with
      | some old =>
          rw [engDelete_eq_some hash s k old hg]
          exact length_engDelState hash s k old
      | none => rw [engDelete_eq_none hash s k hg]
  | getOp k =>
      simp only [engStep]
      rw [engGet_snd]
      cases hmGet k (getShard s (shardIdx hash s k)).data <;> rfl
  | existOp k => rfl
  | scanOp p => rfl
  | statsOp => rfl

theorem wf_engRunFrom (hash : Key → Nat) (mm : Nat) (ops : List EngOp) :
    ∀ s : EngineState, WF hash s → 0 < s.shards.length →
      WF hash (engRunFrom hash mm s ops).1 ∧
        (engRunFrom hash mm s ops).1.shards.length = s.shards.length := by
  induction ops with
  | nil => intro s hwf _; exact ⟨hwf, rfl⟩
  | cons op rest ih =>
      intro s hwf hn
      have hstep := wf_engStep hash mm s op hn hwf
      have hlen := length_engStep hash mm s op
      have := ih (engStep hash mm s op).1 hstep (by omega)
      simp only [engRunFrom]
      exact ⟨this.1, by omega⟩

theorem wf_engRun (hash : Key → Nat) (mm n : Nat) (ops : List EngOp)
    (hn : 0 < n) :
    WF hash (engRun hash mm n ops) ∧
      (engRun hash mm n ops).shards.length = n := by
  have hinit : (initEngine n).shards.length = n := by simp [initEngine]
  have := wf_engRunFrom hash mm ops (initEngine n) (wf_init hash n)
    (by omega)
  exact ⟨this.1, by unfold engRun; omega⟩

theorem sum_sizes_of_wf {hash : Key → Nat} {s : EngineState}
    (hwf : WF hash s) :
    (s.shards.map fun sh => sh.size).sum = engTotalFootprint s := by
  unfold engTotalFootprint
  congr 1
  exact List.map_congr_left hwf.sizes

/-! Evolution of the engine's key→value view under writes. -/

theorem shardIdx_engSetState (hash : Key → Nat) (s : EngineState)
    (k q : Key) (v : Value) :
    shardIdx hash (engSetState hash s k v) q = shardIdx hash s q := by
  unfold shardIdx
  rw [length_engSetState]

theorem shardIdx_engDelState (hash : Key → Nat) (s : EngineState)
    (k q : Key) (old : Value) :
    shardIdx hash (engDelState hash s k old) q = shardIdx hash s q := by
  unfold shardIdx
  rw [length_engDelState]

theorem engineLookup_engSetState (hash : Key → Nat) (s : EngineState)
    (k q : Key) (v : Value) (hn : 0 < s.shards.length) :
    engineLookup hash (engSetState hash s k v) q =
      if k = q then some v else engineLookup hash s q := by
  unfold engineLookup
  rw [shardIdx_engSetState]
  by_cases hidx : shardIdx hash s q = shardIdx hash s k
  · rw [hidx, getShard_engSetState_self hash s k v hn]
    have hdata : (setNewShard hash s k v).data =
        hmInsert k v (getShard s (shardIdx hash s k)).data := rfl
    rw [hdata, hmGet_insert]
  · rw [getShard_engSetState_ne hash s k v _ hidx]
    have hkq : ¬ k = q := fun he => hidx (he ▸ rfl)
    simp [hkq]

theorem engineLookup_engDelState (hash : Key → Nat) (s : EngineState)
    (k q : Key) (old : Value) (hn : 0 < s.shards.length) (hwf : WF hash s) :
    engineLookup hash (engDelState hash s k old) q =
      if k = q then none else engineLookup hash s q := by
  unfold engineLookup
  rw [shardIdx_engDelState]
  have hnodup : (keysOf (getShard s (shardIdx hash s k)).data).Nodup :=
    hwf.nodups _ (getShard_mem s _ (Nat.mod_lt _ hn))
  by_cases hidx : shardIdx hash s q = shardIdx hash s k
  · rw [hidx, getShard_engDelState_self hash s k old hn]
    have hdata : (delNewShard hash s k old).data =
        hmRemove k (getShard s (shardIdx hash s k)).data := rfl
    rw [hdata]
    by_cases hkq : k = q
    · subst hkq
      simp [hmGet_remove_self k _ hnodup]
    · simp [hkq, hmGet_remove_ne k q _ hkq, hidx]
  · rw [getShard_engDelState_ne hash s k old _ hidx]
    have hkq : ¬ k = q := fun he => hidx (he ▸ rfl)
    simp [hkq]

theorem totalMemory_engStep_le (hash : Key → Nat) (mm : Nat)
    (s : EngineState) (op : EngOp) :
    (engStep hash mm s op).1.totalMemory ≤ s.totalMemory + opFootprint op := by
  cases op with
  | setOp k v =>
      simp only [engStep, opFootprint]
      cases hset : engSet hash mm s k v with
      | ok s' =>
          obtain ⟨-, rfl⟩ := engSet_ok_inv hash mm s s' k v hset
          simp only [engSetState]
          unfold applyDelta
          split <;> omega
      | error e =>
          show s.totalMemory ≤ s.totalMemory + estimateSize k v
          omega
  | delOp k =>
      simp only [engStep, opFootprint]
      cases hg : hmGet k (getShard s (shardIdx hash s k)).data with
      | some old =>
          rw [engDelete_eq_some hash s k old hg]
          simp only [engDelState]
          rw [applyDelta_neg]
          omega
      | none =>
          rw [engDelete_eq_none hash s k hg]
          show s.totalMemory ≤ s.totalMemory + 0
          omega
  | getOp k =>
      simp only [engStep, opFootprint]
      rw [engGet_snd]
      cases hmGet k (getShard s (shardIdx hash s k)).data <;> simp
  | existOp k => simp [engStep, opFootprint]
  | scanOp p => simp [engStep, opFootprint]
  | statsOp => simp [engStep, opFootprint]

/-- If enough budget remains for the whole suffix, no step is rejected
by the admission check. -/
theorem no_reject_of_budget (hash : Key → Nat) (mm : Nat) :
    ∀ (ops : List EngOp) (s : EngineState),
      s.totalMemory + footSum ops ≤ mm →
      ∀ e, EngOut.rejected e ∉ (engRunFrom hash mm s ops).2 := by
  intro ops
  induction ops with
  | nil => intro s _ e h; simp [engRunFrom] at h
  | cons op rest ih =>
      intro s hbud e hmem
      have hfs : footSum (op :: rest) = opFootprint op + footSum rest := by
        simp [footSum]
      simp only [engRunFrom, List.mem_cons] at hmem
      have hstep_le := totalMemory_engStep_le hash mm s op
      rcases hmem with hhead | htail
      · cases op with
        | setOp k v =>
            have hsz : s.totalMemory + estimateSize k v ≤ mm := by
              simp only [footSum, List.map_cons, List.sum_cons,
                opFootprint] at hbud
              omega
            rw [show engStep hash mm s (.setOp k v)
                = ((engSetState hash s k v), .okOut) from by
              simp only [engStep, engSet_eq_ok hash mm s k v hsz]] at hhead
            exact EngOut.noConfusion hhead
        | delOp k =>
            revert hhead
            simp only [engStep]
            cases hg : hmGet k (getShard s (shardIdx hash s k)).data with
            | some old =>
                rw [engDelete_eq_some hash s k old hg]
                exact fun h => EngOut.noConfusion h
            | none =>
                rw [engDelete_eq_none hash s k hg]
                exact fun h => EngOut.noConfusion h
        | getOp k =>
            revert hhead
            simp only [engStep]
            cases hmGet k (getShard s (shardIdx hash s k)).data <;>
              exact fun h => EngOut.noConfusion h
        | existOp k => exact EngOut.noConfusion hhead
        | scanOp p => exact EngOut.noConfusion hhead
        | statsOp => exact EngOut.noConfusion hhead
      · refine ih (engStep hash mm s op).1 ?_ e htail
        omega

theorem counters_engStep (hash : Key → Nat) (mm : Nat) (s : EngineState)
    (op : EngOp) :
    (engStep hash mm s op).1.hits
        = s.hits + (if isHit (engStep hash mm s op).2 then 1 else 0) ∧
    (engStep hash mm s op).1.misses
        = s.misses + (if isMiss (engStep hash mm s op).2 then 1 else 0) ∧
    (engStep hash mm s op).1.totalOps
        = s.totalOps + (if isGet (engStep hash mm s op).2 then 1 else 0)
          + (if isAcceptedMutation (engStep hash mm s op).2 then 1 else 0) := by
  cases op with
  | setOp k v =>
      by_cases hadm : s.totalMemory + estimateSize k v ≤ mm
      · rw [show engStep hash mm s (.setOp k v) = (engSetState hash s k v, .okOut)
            from by simp only [engStep, engSet_eq_ok hash mm s k v hadm]]
        simp [engSetState, isHit, isMiss, isGet, isAcceptedMutation]
      · obtain ⟨e, he⟩ := engSet_eq_err hash mm s k v (by omega)
        rw [show engStep hash mm s (.setOp k v) = (s, .rejected e)
            from by simp only [engStep, he]]
        simp [isHit, isMiss, isGet, isAcceptedMutation]
  | delOp k =>
      cases hg : hmGet k (getShard s (shardIdx hash s k)).data with
      | some old =>
          simp only [engStep, engDelete_eq_some hash s k old hg]
          simp [engDelState, isHit, isMiss, isGet, isAcceptedMutation]
      | none =>
          simp only [engStep, engDelete_eq_none hash s k hg]
          simp [isHit, isMiss, isGet, isAcceptedMutation]
  | getOp k =>
      cases hg : hmGet k (getShard s (shardIdx hash s k)).data with
      | some v =>
          simp only [engStep, engGet, hg]
          simp [isHit, isMiss, isGet, isAcceptedMutation]
      | none =>
          simp only [engStep, engGet, hg]
          simp [isHit, isMiss, isGet, isAcceptedMutation]
  | existOp k => simp [engStep, isHit, isMiss, isGet, isAcceptedMutation]
  | scanOp p => simp [engStep, isHit, isMiss, isGet, isAcceptedMutation]
  | statsOp => simp [engStep, isHit, isMiss, isGet, isAcceptedMutation]

theorem counters_engRunFrom (hash : Key → Nat) (mm : Nat) :
    ∀ (ops : List EngOp) (s : EngineState),
      (engRunFrom hash mm s ops).1.hits
          = s.hits + (engRunFrom hash mm s ops).2.countP isHit ∧
      (engRunFrom hash mm s ops).1.misses
          = s.misses + (engRunFrom hash mm s ops).2.countP isMiss ∧
      (engRunFrom hash mm s ops).1.totalOps
          = s.totalOps + (engRunFrom hash mm s ops).2.countP isGet
            + (engRunFrom hash mm s ops).2.countP isAcceptedMutation := by
  intro ops
  induction ops with
  | nil => intro s; simp [engRunFrom]
  | cons op rest ih =>
      intro s
      have hstep := counters_engStep hash mm s op
      have htail := ih (engStep hash mm s op).1
      simp only [engRunFrom, List.countP_cons]
      refine ⟨?_, ?_, ?_⟩ <;> omega

/-! Scan as the prefix-filtered key set. -/

theorem engScan_mem (hash : Key → Nat) (s : EngineState) (hwf : WF hash s)
    (p q : Key) :
    q ∈ engScan s p ↔
      (engineLookup hash s q).isSome ∧ p.isPrefixOf q = true := by
  unfold engScan
  rw [List.mem_flatten]
  constructor
  · rintro ⟨l, hl, hql⟩
    rw [List.mem_map] at hl
    obtain ⟨sh, hsh, rfl⟩ := hl
    rw [List.mem_filter] at hql
    obtain ⟨hqk, hpref⟩ := hql
    refine ⟨?_, hpref⟩
    obtain ⟨⟨i, hi⟩, rfl⟩ := List.mem_iff_get.mp hsh
    have hplaced := hwf.placed i q (by
      unfold getShard
      rw [List.getD_eq_getElem _ _ hi]
      exact hqk)
    unfold engineLookup shardIdx
    rw [hplaced]
    unfold getShard
    rw [List.getD_eq_getElem _ _ hi]
    exact hmGet_isSome_of_mem q _ hqk
  · rintro ⟨hsome, hpref⟩
    have hmem : q ∈ keysOf (getShard s (shardIdx hash s q)).data := by
      unfold engineLookup at hsome
      cases hg : hmGet q (getShard s (shardIdx hash s q)).data with
      | some o => exact mem_keysOf_of_get_some hg
      | none => rw [hg] at hsome; exact Bool.noConfusion hsome
    have hlen : 0 < s.shards.length := by
      rcases Nat.eq_zero_or_pos s.shards.length with h0 | h; swap
      · exact h
      · exfalso
        revert hmem
        unfold getShard
        rw [List.getD_eq_default _ _ (by omega)]
        simp
    have hi : shardIdx hash s q < s.shards.length := Nat.mod_lt _ hlen
    refine ⟨(keysOf (getShard s (shardIdx hash s q)).data).filter
      (fun k => p.isPrefixOf k), ?_, ?_⟩
    · rw [List.mem_map]
      exact ⟨getShard s (shardIdx hash s q), getShard_mem s _ hi, rfl⟩
    · rw [List.mem_filter]
      exact ⟨hmem, hpref⟩

/-! ### Base64 and AOL-line lemmas -/

theorem b64DecChar_encChar (s : Nat) (h : s < 64) :
    b64DecChar (b64EncChar s) = some s := by
  have hall : ∀ t : Fin 64, b64DecChar (b64EncChar t.1) = some t.1 := by decide
  exact hall ⟨s, h⟩

theorem b64EncChar_ne_pad (s : Nat) (h : s < 64) : b64EncChar s ≠ '=' := by
  have hall : ∀ t : Fin 64, b64EncChar t.1 ≠ '=' := by decide
  exact hall ⟨s, h⟩

theorem isWhiteChar_b64EncChar (s : Nat) : isWhiteChar (b64EncChar s) = false := by
  rcases Nat.lt_or_ge s 64 with h | h
  · have hall : ∀ t : Fin 64, isWhiteChar (b64EncChar t.1) = false := by decide
    exact hall ⟨s, h⟩
  · unfold b64EncChar
    rw [List.getD_eq_default _ _ (by simp [b64Alphabet]; omega)]
    decide

theorem isWhiteChar_pad : isWhiteChar '=' = false := by decide

theorem mem_b64Encode_not_white_aux : ∀ (n : Nat) (v : List Nat),
    v.length ≤ n → ∀ c ∈ b64Encode v, isWhiteChar c = false := by
  intro n
  induction n with
  | zero =>
      intro v hl
      have hv : v = [] := List.eq_nil_of_length_eq_zero (by omega)
      subst hv
      simp [b64Encode]
  | succ m ih =>
      intro v hl
      match v with
      | [] => simp [b64Encode]
      | [b0] =>
          intro c hc
          have h4 : c = b64EncChar (b0 / 4) ∨ c = b64EncChar (b0 % 4 * 16)
              ∨ c = '=' := by
            simp only [b64Encode, List.mem_cons, List.not_mem_nil,
              or_false] at hc
            tauto
          rcases h4 with rfl | rfl | rfl
          · exact isWhiteChar_b64EncChar _
          · exact isWhiteChar_b64EncChar _
          · exact isWhiteChar_pad
      | [b0, b1] =>
          intro c hc
          have h4 : c = b64EncChar (b0 / 4)
              ∨ c = b64EncChar (b0 % 4 * 16 + b1 / 16)
              ∨ c = b64EncChar (b1 % 16 * 4) ∨ c = '=' := by
            simp only [b64Encode, List.mem_cons, List.not_mem_nil,
              or_false] at hc
            tauto
          rcases h4 with rfl | rfl | rfl | rfl
          · exact isWhiteChar_b64EncChar _
          · exact isWhiteChar_b64EncChar _
          · exact isWhiteChar_b64EncChar _
          · exact isWhiteChar_pad
      | b0 :: b1 :: b2 :: rest =>
          simp only [b64Encode, List.mem_cons]
          rintro c (rfl | rfl | rfl | rfl | hc)
          · exact isWhiteChar_b64EncChar _
          · exact isWhiteChar_b64EncChar _
          · exact isWhiteChar_b64EncChar _
          · exact isWhiteChar_b64EncChar _
          · exact ih rest (by simp at hl; omega) c hc

theorem mem_b64Encode_not_white (v : List Nat) :
    ∀ c ∈ b64Encode v, isWhiteChar c = false :=
  mem_b64Encode_not_white_aux v.length v le_rfl

theorem b64Encode_ne_nil (v : List Nat) (hv : v ≠ []) : b64Encode v ≠ [] := by
  match v with
  | [] => exact absurd rfl hv
  | [b0] => simp [b64Encode]
  | [b0, b1] => simp [b64Encode]
  | b0 :: b1 :: b2 :: rest => simp [b64Encode]

theorem b64_roundtrip_aux : ∀ (n : Nat) (v : List Nat), v.length ≤ n →
    (∀ b ∈ v, b < 256) → b64Decode (b64Encode v) = some v := by
  intro n
  induction n with
  | zero =>
      intro v hl _
      have hv : v = [] := List.eq_nil_of_length_eq_zero (by omega)
      subst hv
      rfl
  | succ m ih =>
      intro v hl hv
      match v with
      | [] => rfl
      | [b0] =>
          have h0 : b0 < 256 := hv b0 (by simp)
          have d0 := b64DecChar_encChar (b0 / 4) (by omega)
          have d1 := b64DecChar_encChar (b0 % 4 * 16) (by omega)
          have hmod : b0 % 4 * 16 % 16 = 0 := by omega
          simp only [b64Encode, b64Decode, d0, d1, if_pos rfl, hmod]
          simp only [if_true, Option.some.injEq, List.cons.injEq, and_true]
          omega
      | [b0, b1] =>
          have h0 : b0 < 256 := hv b0 (by simp)
          have h1 : b1 < 256 := hv b1 (by simp)
          have d0 := b64DecChar_encChar (b0 / 4) (by omega)
          have d1 := b64DecChar_encChar (b0 % 4 * 16 + b1 / 16) (by omega)
          have d2 := b64DecChar_encChar (b1 % 16 * 4) (by omega)
          have hne2 : b64EncChar (b1 % 16 * 4) ≠ '=' :=
            b64EncChar_ne_pad _ (by omega)
          have hmod : b1 % 16 * 4 % 4 = 0 := by omega
          simp only [b64Encode, b64Decode, d0, d1, d2, if_neg hne2,
            if_pos rfl, hmod]
          simp only [if_true, Option.some.injEq, List.cons.injEq, and_true]
          constructor <;> omega
      | b0 :: b1 :: b2 :: rest =>
          have h0 : b0 < 256 := hv b0 (by simp)
          have h1 : b1 < 256 := hv b1 (by simp)
          have h2 : b2 < 256 := hv b2 (by simp)
          have d0 := b64DecChar_encChar (b0 / 4) (by omega)
          have d1 := b64DecChar_encChar (b0 % 4 * 16 + b1 / 16) (by omega)
          have d2 := b64DecChar_encChar (b1 % 16 * 4 + b2 / 64) (by omega)
          have d3 := b64DecChar_encChar (b2 % 64) (by omega)
          have hne2 : b64EncChar (b1 % 16 * 4 + b2 / 64) ≠ '=' :=
            b64EncChar_ne_pad _ (by omega)
          have hne3 : b64EncChar (b2 % 64) ≠ '=' :=
            b64EncChar_ne_pad _ (by omega)
          have hrest := ih rest (by simp at hl; omega)
            (fun b hb => hv b (by simp [hb]))
          simp only [b64Encode, b64Decode, d0, d1, d2, d3, if_neg hne2,
            if_neg hne3, hrest]
          simp only [Option.some.injEq, List.cons.injEq, and_true]
          refine ⟨by omega, by omega, by omega⟩

theorem b64_roundtrip (v : List Nat) (hv : ∀ b ∈ v, b < 256) :
    b64Decode (b64Encode v) = some v :=
  b64_roundtrip_aux v.length v le_rfl hv

theorem splitOnSpace_ne_nil (l : List Char) : splitOnSpace l ≠ [] := by
  induction l with
  | nil => simp [splitOnSpace]
  | cons c rest ih =>
      by_cases hc : c = ' '
      · simp [splitOnSpace, hc]
      · simp only [splitOnSpace, if_neg hc]
        cases h : splitOnSpace rest with
        | nil => simp
        | cons w ws => simp

theorem splitOnSpace_no_space (w : List Char) (hw : ' ' ∉ w) :
    splitOnSpace w = [w] := by
  induction w with
  | nil => rfl
  | cons c rest ih =>
      have hc : ¬ c = ' ' := fun he => hw (by simp [he])
      have hrest : ' ' ∉ rest := fun hm => hw (by simp [hm])
      simp only [splitOnSpace, if_neg hc, ih hrest]

theorem splitOnSpace_append (w r : List Char) (hw : ' ' ∉ w) :
    splitOnSpace (w ++ ' ' :: r) = w :: splitOnSpace r := by
  induction w with
  | nil => simp [splitOnSpace]
  | cons c rest ih =>
      have hc : ¬ c = ' ' := fun he => hw (by simp [he])
      have hrest : ' ' ∉ rest := fun hm => hw (by simp [hm])
      simp only [List.cons_append, splitOnSpace, if_neg hc]
      rw [show rest.append (' ' :: r) = rest ++ ' ' :: r from rfl, ih hrest]

theorem trimChars_append_newline (x : List Char) (hx : x ≠ [])
    (hh : ∀ c, x.head? = some c → isWhiteChar c = false)
    (hl : ∀ c, x.getLast? = some c → isWhiteChar c = false) :
    trimChars (x ++ ['\n']) = x := by
  unfold trimChars
  have hdrop1 : List.dropWhile isWhiteChar (x ++ ['\n']) = x ++ ['\n'] := by
    obtain ⟨c, t, rfl⟩ := List.exists_cons_of_ne_nil hx
    have hc : isWhiteChar c = false := hh c rfl
    rw [List.cons_append, List.dropWhile_cons, hc]
    simp
  rw [hdrop1]
  have h2 : (x ++ ['\n']).reverse = '\n' :: x.reverse := by simp
  rw [h2]
  have hnl : isWhiteChar '\n' = true := by decide
  rw [List.dropWhile_cons, hnl]
  simp only [if_true]
  cases hrev : x.reverse with
  | nil =>
      exfalso
      apply hx
      simpa using congrArg List.reverse hrev
  | cons c' t' =>
      have hlast : x.getLast? = some c' := by
        rw [← List.head?_reverse, hrev]
        rfl
      have hc' : isWhiteChar c' = false := hl c' hlast
      rw [List.dropWhile_cons, hc']
      simp only [Bool.false_eq_true, if_false]
      rw [← hrev, List.reverse_reverse]

theorem mem_of_getLast?_eq {α : Type _} {l : List α} {c : α}
    (h : l.getLast? = some c) : c ∈ l := by
  have hm : c ∈ l.getLast? := by rw [h]; rfl
  obtain ⟨hne, rfl⟩ := List.mem_getLast?_eq_getLast hm
  exact List.getLast_mem hne

theorem fromAofEntry_toAofEntry_put (k : Key) (v : Value) (hk : k ≠ [])
    (hkw : ∀ c ∈ k, isWhiteChar c = false) (hv : v ≠ [])
    (hvb : ∀ b ∈ v, b < 256) :
    fromAofEntry (toAofEntry (.put k v)) = .ok (.put k v) := by
  have hb64ne : b64Encode v ≠ [] := b64Encode_ne_nil v hv
  have hkns : ' ' ∉ k := fun hm =>
    absurd (hkw ' ' hm) (by decide)
  have hb64ns : ' ' ∉ b64Encode v := fun hm =>
    absurd (mem_b64Encode_not_white v ' ' hm) (by decide)
  have hline : toAofEntry (.put k v)
      = ("SET ".data ++ (k ++ ' ' :: b64Encode v)) ++ ['\n'] := by
    simp [toAofEntry, List.append_assoc]
  have htrim : trimChars (toAofEntry (.put k v))
      = "SET ".data ++ (k ++ ' ' :: b64Encode v) := by
    rw [hline]
    apply trimChars_append_newline
    · simp
    · intro c hc
      have h2 : ("SET ".data ++ (k ++ ' ' :: b64Encode v)).head? = some 'S' := rfl
      rw [h2] at hc
      rw [← Option.some.inj hc]
      decide
    · intro c hc
      rw [List.getLast?_append_of_ne_nil _ (by simp),
        List.getLast?_append_of_ne_nil _ (by simp),
        show (' ' :: b64Encode v) = [' '] ++ b64Encode v from rfl,
        List.getLast?_append_of_ne_nil _ hb64ne] at hc
      exact mem_b64Encode_not_white v c (mem_of_getLast?_eq hc)
  have hshape : "SET ".data ++ (k ++ ' ' :: b64Encode v)
      = "SET".data ++ ' ' :: (k ++ ' ' :: b64Encode v) := rfl
  have hsplit : splitOnSpace (trimChars (toAofEntry (.put k v)))
      = ["SET".data, k, b64Encode v] := by
    rw [htrim, hshape, splitOnSpace_append _ _ (by decide),
      splitOnSpace_append _ _ hkns, splitOnSpace_no_space _ hb64ns]
  unfold fromAofEntry
  rw [hsplit]
  show (if "SET".data = "SET".data ∧ 1 ≤ ([b64Encode v] : List (List Char)).length
      then _ else _) = _
  rw [if_pos ⟨rfl, by simp⟩]
  have hjoin : joinSpace [b64Encode v] = b64Encode v := rfl
  rw [hjoin, b64_roundtrip v hvb]

theorem fromAofEntry_toAofEntry_del (k : Key) (hk : k ≠ [])
    (hkw : ∀ c ∈ k, isWhiteChar c = false) :
    fromAofEntry (toAofEntry (.delete k)) = .ok (.delete k) := by
  have hkns : ' ' ∉ k := fun hm =>
    absurd (hkw ' ' hm) (by decide)
  have hline : toAofEntry (.delete k) = ("DEL ".data ++ k) ++ ['\n'] := by
    simp [toAofEntry, List.append_assoc]
  have htrim : trimChars (toAofEntry (.delete k)) = "DEL ".data ++ k := by
    rw [hline]
    apply trimChars_append_newline
    · simp
    · intro c hc
      have h2 : ("DEL ".data ++ k).head? = some 'D' := rfl
      rw [h2] at hc
      rw [← Option.some.inj hc]
      decide
    · intro c hc
      rw [List.getLast?_append_of_ne_nil _ hk] at hc
      exact hkw c (mem_of_getLast?_eq hc)
  have hshape : "DEL ".data ++ k = "DEL".data ++ ' ' :: k := rfl
  have hsplit : splitOnSpace (trimChars (toAofEntry (.delete k)))
      = ["DEL".data, k] := by
    rw [htrim, hshape, splitOnSpace_append _ _ (by decide),
      splitOnSpace_no_space _ hkns]
  unfold fromAofEntry
  rw [hsplit]
  show (if "DEL".data = "SET".data ∧ 1 ≤ ([] : List (List Char)).length
      then _ else _) = _
  rw [if_neg (by decide), if_pos (by decide)]

/-- C8 — corrected.  For an `Operation` whose key is non-empty and free
of whitespace, and whose value (for `Put`) is non-empty with byte
entries, serialising to an AOL line and parsing it back is the
identity.  (The empty-value `Put` is the necessary exclusion: its line
`SET <key> \n` trims to two tokens and fails to parse — see the
counterexample.) -/
theorem c8_aof_roundtrip (op : Operation)
    (hkey_ne : opKey op ≠ [])
    (hkey_ws : ∀ c ∈ opKey op, isWhiteChar c = false)
    (hval : ∀ v, opValue op = some v → v ≠ [] ∧ ∀ b ∈ v, b < 256) :
    fromAofEntry (toAofEntry op) = .ok op := by
  cases op with
  | put k v =>
      obtain ⟨hvne, hvb⟩ := hval v rfl
      exact fromAofEntry_toAofEntry_put k v hkey_ne hkey_ws hvne hvb
  | delete k => exact fromAofEntry_toAofEntry_del k hkey_ne hkey_ws

/-- C8 — witness: the round trip at `Put{"key", b"hi"}`, with every
hypothesis discharged concretely. -/
theorem c8_aof_roundtrip_witness :
    fromAofEntry (toAofEntry (.put "key".data [104, 105]))
      = .ok (.put "key".data [104, 105]) :=
  c8_aof_roundtrip (.put "key".data [104, 105]) (by decide) (by decide)
    (fun v hvv => by
      have hveq : v = [104, 105] := (Option.some.inj hvv).symm
      subst hveq
      exact ⟨by decide, by decide⟩)

/-- C8 — counterexample to the unamended claim: a `Put` with an empty
value has key `"k"` (non-empty, no whitespace), yet its log line
`"SET k \n"` trims to just two tokens, so parsing fails instead of
returning the operation. -/
theorem c8_counterexample :
    fromAofEntry (toAofEntry (.put "k".data [])) ≠
      .ok (.put "k".data []) := by
  decide

/-- C1 — the code bug, evaluated.  A `SET foo bar` line processed
through the connection handler as `main` wires it (parser straight into
`CommandDispatcher::execute`) is acknowledged with `OK` and mutates the
engine, yet nothing is ever submitted to the append-only log: the TCP
path simply has no reference to the persistence manager.  The claim's
required order (log submitted and acknowledged before the engine is
mutated) is therefore violated by every acknowledged TCP write. -/
theorem c1_tcp_write_never_logged :
    (tcpProcessCommand demoHash defaultMaxMemory (initDB defaultShardCount)
        "SET foo bar".data).1 = CommandResponse.ok
    ∧ engineLookup demoHash
        (tcpProcessCommand demoHash defaultMaxMemory (initDB defaultShardCount)
          "SET foo bar".data).2.engine "foo".data
        = some [98, 97, 114]
    ∧ (tcpProcessCommand demoHash defaultMaxMemory (initDB defaultShardCount)
        "SET foo bar".data).2.aolLog = [] := by
  refine ⟨by decide, by decide, by decide⟩

/-- C3 — the code bug, evaluated.  `BlazeKVDB::execute` submits the
`Operation` to the AOL *before* dispatch, so a `Set` that then fails
validation (empty key) or admission (memory limit) still leaves a
record in the log, although the response is an `Error` and the engine
is unchanged.  The claim's "no Operation record is submitted" is false
on both rejection paths. -/
theorem c3_rejected_set_still_logged :
    ((blazeExecute demoHash defaultMaxMemory (initDB defaultShardCount)
        (Command.set [] [118] none)).1
        = CommandResponse.error "Invalid parameter: Key cannot be empty"
      ∧ (blazeExecute demoHash defaultMaxMemory (initDB defaultShardCount)
          (Command.set [] [118] none)).2.aolLog = [Operation.put [] [118]]
      ∧ (blazeExecute demoHash defaultMaxMemory (initDB defaultShardCount)
          (Command.set [] [118] none)).2.engine = initEngine defaultShardCount)
    ∧ ((blazeExecute demoHash 10 (initDB defaultShardCount)
        (Command.set "a".data [118] none)).1
        = CommandResponse.error
            "Persistence error: Memory limit exceeded: 0 + 66 > 10"
      ∧ (blazeExecute demoHash 10 (initDB defaultShardCount)
          (Command.set "a".data [118] none)).2.aolLog
          = [Operation.put "a".data [118]]
      ∧ (blazeExecute demoHash 10 (initDB defaultShardCount)
          (Command.set "a".data [118] none)).2.engine
          = initEngine defaultShardCount) := by
  refine ⟨⟨by decide, by decide, by decide⟩, ⟨by decide, by decide, by decide⟩⟩

/-- C9 — the code bug, evaluated.  A snapshot payload embedding format
version `999.999.999` — newer than any version this crate will ever
declare — decodes successfully: `load_snapshot` is nothing but
`bincode::decode` plus error mapping, and no comparison of the
embedded version against a supported version exists anywhere in the
loader.  The claim requires an error for such payloads. -/
theorem c9_newer_version_accepted :
    decodeSnapshot (encodeSnapshot snapNewVersion) = .ok snapNewVersion
    ∧ snapNewVersion.metadata.version = "999.999.999".data := by
  refine ⟨by decide, rfl⟩

/-- C4 — counterexample to the unamended claim: with key `"a"` in the
store, a `Scan` command with the empty prefix is rejected by
`ScanCommand::validate` and answers with an `Error`, not with the full
key set the claim requires. -/
theorem c4_counterexample :
    (dispatchExecute demoHash defaultMaxMemory (Command.scan [])
        (dispatchExecute demoHash defaultMaxMemory
          (Command.set "a".data [1] none) (initEngine 16)).2).1
      = CommandResponse.error
          "Missing required parameter: Key prefix cannot be empty"
    ∧ engineLookup demoHash
        (dispatchExecute demoHash defaultMaxMemory
          (Command.set "a".data [1] none) (initEngine 16)).2 "a".data
        = some [1] := by
  exact ⟨by decide, by decide⟩

/-- C4 — corrected.  For a non-empty prefix of at most 512 bytes, a
`Scan` command executed against any reachable engine state passes
validation and returns the keys of exactly `{k ∈ S : k starts with p}`;
the empty (or omitted) prefix case must be excluded because
`ScanCommand::validate` rejects it with an error (see the
counterexample). -/
theorem c4_scan_filtered (hash : Key → Nat) (mm n : Nat) (ops : List EngOp)
    (p : Key) (hn : 0 < n) (hp1 : p ≠ []) (hp2 : p.length ≤ 512) :
    dispatchExecute hash mm (Command.scan p) (engRun hash mm n ops)
      = (CommandResponse.keys (engScan (engRun hash mm n ops) p),
          engRun hash mm n ops)
    ∧ ∀ q, q ∈ engScan (engRun hash mm n ops) p ↔
        (engineLookup hash (engRun hash mm n ops) q).isSome
          ∧ p.isPrefixOf q = true := by
  have hwf := (wf_engRun hash mm n ops hn).1
  constructor
  · have hval : validateCommand (Command.scan p) = none := by
      show (if p = []
          then some "Missing required parameter: Key prefix cannot be empty"
          else if p.length > 512
            then some "Invalid parameter: Key prefix too long (max 512 bytes)"
            else none) = none
      rw [if_neg hp1, if_neg (by omega)]
    unfold dispatchExecute
    rw [hval]
    rfl
  · intro q
    exact engScan_mem hash _ hwf p q

/-- C4 — witness: the corrected statement at prefix `"a"` over a store
holding `"ab"` and `"b"`, hypotheses discharged concretely. -/
theorem c4_scan_filtered_witness :
    (("a".data : List Char) ≠ [] ∧ ("a".data : List Char).length ≤ 512
      ∧ 0 < 16)
    ∧ (dispatchExecute demoHash defaultMaxMemory (Command.scan "a".data)
        (engRun demoHash defaultMaxMemory 16
          [.setOp "ab".data [1], .setOp "b".data [2]])
      = (CommandResponse.keys (engScan
          (engRun demoHash defaultMaxMemory 16
            [.setOp "ab".data [1], .setOp "b".data [2]]) "a".data),
          engRun demoHash defaultMaxMemory 16
            [.setOp "ab".data [1], .setOp "b".data [2]])
      ∧ ∀ q, q ∈ engScan (engRun demoHash defaultMaxMemory 16
            [.setOp "ab".data [1], .setOp "b".data [2]]) "a".data ↔
          (engineLookup demoHash (engRun demoHash defaultMaxMemory 16
            [.setOp "ab".data [1], .setOp "b".data [2]]) q).isSome
            ∧ ("a".data : List Char).isPrefixOf q = true) :=
  ⟨⟨by decide, by decide, by decide⟩,
    c4_scan_filtered demoHash defaultMaxMemory 16
      [.setOp "ab".data [1], .setOp "b".data [2]] "a".data
      (by decide) (by decide) (by decide)⟩

/-! C5 support: positional success of `set` under a summed budget. -/

theorem sets_ok_of_budget (hash : Key → Nat) (mm : Nat) :
    ∀ (ops : List EngOp) (s : EngineState),
      s.totalMemory + footSum ops ≤ mm →
      ∀ (i : Nat) (hi : i < ops.length) (k : Key) (v : Value),
        ops.get ⟨i, hi⟩ = .setOp k v →
        (engRunFrom hash mm s ops).2.getD i (.rejected "") = .okOut := by
  intro ops
  induction ops with
  | nil => intro s _ i hi; simp at hi
  | cons op rest ih =>
      intro s hbud i hi k v hop
      have hfs : footSum (op :: rest) = opFootprint op + footSum rest := by
        simp [footSum]
      cases i with
      | zero =>
          have hop0 : op = .setOp k v := hop
          subst hop0
          have hsz : s.totalMemory + estimateSize k v ≤ mm := by
            simp only [footSum, List.map_cons, List.sum_cons,
              opFootprint] at hbud
            omega
          simp only [engRunFrom]
          rw [show engStep hash mm s (.setOp k v)
              = (engSetState hash s k v, .okOut) from by
            simp only [engStep, engSet_eq_ok hash mm s k v hsz]]
          rfl
      | succ j =>
          have hstep_le := totalMemory_engStep_le hash mm s op
          have hj : j < rest.length := by simpa using hi
          have := ih (engStep hash mm s op).1 (by omega) j hj k v
            (by simpa using hop)
          simpa [engRunFrom] using this

/-- C5 — confirmed.  If the summed per-operation footprints
(`len(key) + len(value) + 64` for each `set`, nothing for the rest) of
a sequence stay within `max_memory`, then every `set` in the
sequentially executed sequence is admitted — none is rejected by the
admission check. -/
theorem c5_sets_succeed (hash : Key → Nat) (mm n : Nat) (ops : List EngOp)
    (hn : 0 < n) (hbud : footSum ops ≤ mm) :
    ∀ (i : Nat) (hi : i < ops.length) (k : Key) (v : Value),
      ops.get ⟨i, hi⟩ = .setOp k v →
      (engOutputs hash mm n ops).getD i (.rejected "") = .okOut := by
  intro i hi k v hop
  have h0 : (initEngine n).totalMemory = 0 := rfl
  exact sets_ok_of_budget hash mm ops (initEngine n) (by omega) i hi k v hop

/-- C5 — witness: a three-operation sequence within budget; both `set`
calls are admitted. -/
theorem c5_sets_succeed_witness :
    (0 < 16 ∧ footSum [.setOp "a".data [1], .delOp "a".data,
        .setOp "b".data [2, 3]] ≤ 1000)
    ∧ (engOutputs demoHash 1000 16 [.setOp "a".data [1], .delOp "a".data,
        .setOp "b".data [2, 3]]).getD 0 (.rejected "") = .okOut
    ∧ (engOutputs demoHash 1000 16 [.setOp "a".data [1], .delOp "a".data,
        .setOp "b".data [2, 3]]).getD 2 (.rejected "") = .okOut :=
  ⟨⟨by decide, by decide⟩,
    c5_sets_succeed demoHash 1000 16 _ (by decide) (by decide) 0
      (by decide) "a".data [1] (by decide),
    c5_sets_succeed demoHash 1000 16 _ (by decide) (by decide) 2
      (by decide) "b".data [2, 3] (by decide)⟩

/-- C6 — confirmed.  After any sequentially executed operation sequence
from a fresh engine, the process-wide memory counter, the sum of the
per-shard size counters, and the summed footprints of all stored
entries coincide. -/
theorem c6_memory_accounting (hash : Key → Nat) (mm n : Nat)
    (ops : List EngOp) (hn : 0 < n) :
    (engRun hash mm n ops).totalMemory
        = ((engRun hash mm n ops).shards.map fun sh => sh.size).sum
    ∧ (engRun hash mm n ops).totalMemory
        = engTotalFootprint (engRun hash mm n ops) := by
  have hwf := (wf_engRun hash mm n ops hn).1
  refine ⟨?_, hwf.total⟩
  rw [sum_sizes_of_wf hwf]
  exact hwf.total

/-- C6 — witness at a concrete run with an overwrite and a delete. -/
theorem c6_memory_accounting_witness :
    0 < 4
    ∧ ((engRun demoHash 1000 4 [.setOp "a".data [1], .setOp "a".data [5, 6],
        .setOp "b".data [2], .delOp "b".data]).totalMemory
      = ((engRun demoHash 1000 4 [.setOp "a".data [1], .setOp "a".data [5, 6],
          .setOp "b".data [2], .delOp "b".data]).shards.map
            fun sh => sh.size).sum
      ∧ (engRun demoHash 1000 4 [.setOp "a".data [1], .setOp "a".data [5, 6],
          .setOp "b".data [2], .delOp "b".data]).totalMemory
        = engTotalFootprint (engRun demoHash 1000 4
            [.setOp "a".data [1], .setOp "a".data [5, 6],
              .setOp "b".data [2], .delOp "b".data])) :=
  ⟨by decide,
    c6_memory_accounting demoHash 1000 4
      [.setOp "a".data [1], .setOp "a".data [5, 6], .setOp "b".data [2],
        .delOp "b".data] (by decide)⟩

/-- C7 — confirmed.  The reported `hit_rate` is hits/(hits+misses)
counting only `get` outcomes — `0` when no `get` occurred — and
`total_operations` counts exactly the `get` calls plus the accepted
mutations (admitted `set`s and `delete`s that removed a key); rejected
`set`s, missed `delete`s, `exists`, `scan` and `stats` contribute to
neither. -/
theorem c7_stats_hit_rate (hash : Key → Nat) (mm n : Nat) (ops : List EngOp)
    (hn : 0 < n) :
    (engStats (engRun hash mm n ops)).hitRate
        = (if 0 < (engOutputs hash mm n ops).countP isHit
              + (engOutputs hash mm n ops).countP isMiss
           then ((engOutputs hash mm n ops).countP isHit : ℚ)
             / (((engOutputs hash mm n ops).countP isHit
                + (engOutputs hash mm n ops).countP isMiss : Nat) : ℚ)
           else 0)
    ∧ (engStats (engRun hash mm n ops)).totalOperations
        = (engOutputs hash mm n ops).countP isGet
          + (engOutputs hash mm n ops).countP isAcceptedMutation := by
  obtain ⟨hh, hm2, ht⟩ := counters_engRunFrom hash mm ops (initEngine n)
  have hh0 : (engRun hash mm n ops).hits
      = (engOutputs hash mm n ops).countP isHit := by
    have hz : (initEngine n).hits = 0 := rfl
    unfold engRun engOutputs
    omega
  have hm0 : (engRun hash mm n ops).misses
      = (engOutputs hash mm n ops).countP isMiss := by
    have hz : (initEngine n).misses = 0 := rfl
    unfold engRun engOutputs
    omega
  have ht0 : (engRun hash mm n ops).totalOps
      = (engOutputs hash mm n ops).countP isGet
        + (engOutputs hash mm n ops).countP isAcceptedMutation := by
    have hz : (initEngine n).totalOps = 0 := rfl
    unfold engRun engOutputs
    omega
  constructor
  · unfold engStats
    simp only [hh0, hm0]
  · unfold engStats
    simp only [ht0]

/-- C7 — witness at a concrete run with a hit, a miss, an accepted and
a missed mutation. -/
theorem c7_stats_hit_rate_witness :
    0 < 4
    ∧ ((engStats (engRun demoHash 1000 4 [.setOp "a".data [1],
          .getOp "a".data, .getOp "b".data, .delOp "b".data])).hitRate
        = (if 0 < (engOutputs demoHash 1000 4 [.setOp "a".data [1],
              .getOp "a".data, .getOp "b".data, .delOp "b".data]).countP isHit
              + (engOutputs demoHash 1000 4 [.setOp "a".data [1],
                .getOp "a".data, .getOp "b".data,
                .delOp "b".data]).countP isMiss
           then ((engOutputs demoHash 1000 4 [.setOp "a".data [1],
              .getOp "a".data, .getOp "b".data,
              .delOp "b".data]).countP isHit : ℚ)
             / (((engOutputs demoHash 1000 4 [.setOp "a".data [1],
                .getOp "a".data, .getOp "b".data,
                .delOp "b".data]).countP isHit
                + (engOutputs demoHash 1000 4 [.setOp "a".data [1],
                  .getOp "a".data, .getOp "b".data,
                  .delOp "b".data]).countP isMiss : Nat) : ℚ)
           else 0)
      ∧ (engStats (engRun demoHash 1000 4 [.setOp "a".data [1],
          .getOp "a".data, .getOp "b".data,
          .delOp "b".data])).totalOperations
        = (engOutputs demoHash 1000 4 [.setOp "a".data [1], .getOp "a".data,
            .getOp "b".data, .delOp "b".data]).countP isGet
          + (engOutputs demoHash 1000 4 [.setOp "a".data [1],
              .getOp "a".data, .getOp "b".data,
              .delOp "b".data]).countP isAcceptedMutation) :=
  ⟨by decide,
    c7_stats_hit_rate demoHash 1000 4
      [.setOp "a".data [1], .getOp "a".data, .getOp "b".data,
        .delOp "b".data] (by decide)⟩

/-- C10 — confirmed.  `get` leaves every shard (data and size counter)
and the process-wide memory counter untouched — the only fields it may
change are the hit, miss and total-operation counters — and `exists`,
`scan` and `stats` leave the whole engine state unchanged. -/
theorem c10_reads_frame (hash : Key → Nat) (mm : Nat) (s : EngineState)
    (k p : Key) :
    (engGet hash s k).2.shards = s.shards
    ∧ (engGet hash s k).2.totalMemory = s.totalMemory
    ∧ (engStep hash mm s (.existOp k)).1 = s
    ∧ (engStep hash mm s (.scanOp p)).1 = s
    ∧ (engStep hash mm s .statsOp).1 = s := by
  refine ⟨?_, ?_, rfl, rfl, rfl⟩
  · rw [engGet_snd]
    cases hmGet k (getShard s (shardIdx hash s k)).data <;> rfl
  · rw [engGet_snd]
    cases hmGet k (getShard s (shardIdx hash s k)).data <;> rfl

/-! C2 support: recovery refines the specification's replayed map. -/

theorem engineLookup_init (hash : Key → Nat) (n : Nat) (q : Key) :
    engineLookup hash (initEngine n) q = none := by
  have hdata : ∀ i, (getShard (initEngine n) i).data = [] := by
    intro i
    unfold getShard initEngine
    rcases Nat.lt_or_ge i n with h | h
    · rw [List.getD_eq_getElem _ _ (by simp only [List.length_replicate]; exact h)]
      simp
    · rw [List.getD_eq_default _ _ (by simp only [List.length_replicate]; omega)]
  unfold engineLookup
  rw [hdata]
  rfl

theorem foldl_specApplyPair_congr :
    ∀ (l : List (Key × Value)) (m m' : Key → Option Value),
      (∀ q, m q = m' q) →
      ∀ q, (l.foldl specApplyPair m) q = (l.foldl specApplyPair m') q := by
  intro l
  induction l with
  | nil => intro m m' h q; exact h q
  | cons kv rest ih =>
      intro m m' h q
      simp only [List.foldl_cons]
      refine ih _ _ ?_ q
      intro q'
      unfold specApplyPair
      rw [h q']

theorem foldl_specApplyOp_congr :
    ∀ (l : List Operation) (m m' : Key → Option Value),
      (∀ q, m q = m' q) →
      ∀ q, (l.foldl specApplyOp m) q = (l.foldl specApplyOp m') q := by
  intro l
  induction l with
  | nil => intro m m' h q; exact h q
  | cons op rest ih =>
      intro m m' h q
      simp only [List.foldl_cons]
      refine ih _ _ ?_ q
      intro q'
      cases op with
      | put k v => unfold specApplyOp; simp only; rw [h q']
      | delete k => unfold specApplyOp; simp only; rw [h q']

theorem applySnapshotPairs_props (hash : Key → Nat) (mm : Nat) :
    ∀ (pairs : List (Key × Value)) (s sf : EngineState),
      WF hash s → 0 < s.shards.length →
      applySnapshotPairs hash mm pairs s = .ok sf →
      WF hash sf ∧ sf.shards.length = s.shards.length ∧
        ∀ q, engineLookup hash sf q
          = (pairs.foldl specApplyPair (engineLookup hash s)) q := by
  intro pairs
  induction pairs with
  | nil =>
      intro s sf hwf hn h
      have hsf : s = sf := Except.ok.inj h
      subst hsf
      exact ⟨hwf, rfl, fun q => rfl⟩
  | cons kv rest ih =>
      intro s sf hwf hn h
      obtain ⟨k, v⟩ := kv
      simp only [applySnapshotPairs] at h
      cases hset : engSet hash mm s k v with
      | error e => rw [hset] at h; exact Except.noConfusion h
      | ok s1 =>
          rw [hset] at h
          obtain ⟨-, rfl⟩ := engSet_ok_inv hash mm s s1 k v hset
          have hwf1 := wf_engSetState hash s k v hn hwf
          have hlen1 := length_engSetState hash s k v
          obtain ⟨hwf2, hlen2, hlk2⟩ := ih _ sf hwf1 (by omega) h
          refine ⟨hwf2, by omega, ?_⟩
          intro q
          rw [hlk2 q]
          simp only [List.foldl_cons]
          apply foldl_specApplyPair_congr
          intro q'
          rw [engineLookup_engSetState hash s k q' v hn]
          rfl

theorem applyLogOps_props (hash : Key → Nat) (mm : Nat) :
    ∀ (log : List Operation) (s sf : EngineState),
      WF hash s → 0 < s.shards.length →
      applyLogOps hash mm log s = .ok sf →
      WF hash sf ∧ sf.shards.length = s.shards.length ∧
        ∀ q, engineLookup hash sf q
          = (log.foldl specApplyOp (engineLookup hash s)) q := by
  intro log
  induction log with
  | nil =>
      intro s sf hwf hn h
      have hsf : s = sf := Except.ok.inj h
      subst hsf
      exact ⟨hwf, rfl, fun q => rfl⟩
  | cons op rest ih =>
      intro s sf hwf hn h
      cases op with
      | put k v =>
          simp only [applyLogOps] at h
          cases hset : engSet hash mm s k v with
          | error e => rw [hset] at h; exact Except.noConfusion h
          | ok s1 =>
              rw [hset] at h
              obtain ⟨-, rfl⟩ := engSet_ok_inv hash mm s s1 k v hset
              have hwf1 := wf_engSetState hash s k v hn hwf
              have hlen1 := length_engSetState hash s k v
              obtain ⟨hwf2, hlen2, hlk2⟩ := ih _ sf hwf1 (by omega) h
              refine ⟨hwf2, by omega, ?_⟩
              intro q
              rw [hlk2 q]
              simp only [List.foldl_cons]
              apply foldl_specApplyOp_congr
              intro q'
              rw [engineLookup_engSetState hash s k q' v hn]
              rfl
      | delete k =>
          simp only [applyLogOps] at h
          cases hg : hmGet k (getShard s (shardIdx hash s k)).data with
          | some old =>
              rw [engDelete_eq_some hash s k old hg] at h
              have hwf1 := wf_engDelState hash s k old hn hwf hg
              have hlen1 := length_engDelState hash s k old
              obtain ⟨hwf2, hlen2, hlk2⟩ := ih _ sf hwf1 (by omega) h
              refine ⟨hwf2, by omega, ?_⟩
              intro q
              rw [hlk2 q]
              simp only [List.foldl_cons]
              apply foldl_specApplyOp_congr
              intro q'
              rw [engineLookup_engDelState hash s k q' old hn hwf]
              rfl
          | none =>
              rw [engDelete_eq_none hash s k hg] at h
              obtain ⟨hwf2, hlen2, hlk2⟩ := ih _ sf hwf hn h
              refine ⟨hwf2, by omega, ?_⟩
              intro q
              rw [hlk2 q]
              simp only [List.foldl_cons]
              apply foldl_specApplyOp_congr
              intro q'
              show engineLookup hash s q'
                = if k = q' then none else engineLookup hash s q'
              by_cases hkq : k = q'
              · subst hkq
                rw [if_pos rfl]
                exact hg
              · rw [if_neg hkq]

/-- C2 — confirmed.  Whenever `recover` completes on an engine that
starts empty (every involved `set` admitted — exactly the cases where
the fold returns `Ok`), the engine's key→value view equals the
snapshot's mapping updated by replaying every log operation in order:
`Put` overwrites, `Delete` removes.  With no snapshot the initial
mapping is empty, so the result is the pure log replay. -/
theorem c2_recovery_equals_replay (hash : Key → Nat) (mm n : Nat)
    (snap : Option (List (Key × Value))) (log : List Operation)
    (sf : EngineState) (hn : 0 < n)
    (hrec : recoverRun hash mm n snap log = .ok sf) :
    ∀ q, engineLookup hash sf q = specRecoveredMap snap log q := by
  unfold recoverRun at hrec
  cases hsnap : applySnapshotPairs hash mm (snap.getD []) (initEngine n) with
  | error e => rw [hsnap] at hrec; exact Except.noConfusion hrec
  | ok s1 =>
      rw [hsnap] at hrec
      have hlen0 : (initEngine n).shards.length = n := by simp [initEngine]
      obtain ⟨hwf1, hlen1, hlk1⟩ := applySnapshotPairs_props hash mm _ _ _
        (wf_init hash n) (by omega) hsnap
      obtain ⟨hwf2, hlen2, hlk2⟩ := applyLogOps_props hash mm log s1 sf
        hwf1 (by omega) hrec
      intro q
      rw [hlk2 q]
      unfold specRecoveredMap
      apply foldl_specApplyOp_congr
      intro q'
      rw [hlk1 q']
      apply foldl_specApplyPair_congr
      intro q''
      exact engineLookup_init hash n q''

/-- C2 — witness: a concrete recovery (two-key snapshot, one `Put` and
one `Delete` in the log) matches the replayed map; the success
hypothesis is discharged by evaluation. -/
theorem c2_recovery_equals_replay_witness :
    (0 < 4 ∧ recoverRun demoHash 1000 4 snapEx logEx = .ok recResult)
    ∧ ∀ q, engineLookup demoHash recResult q
        = specRecoveredMap snapEx logEx q :=
  ⟨⟨by decide, by decide⟩,
    c2_recovery_equals_replay demoHash 1000 4 snapEx logEx recResult
      (by decide) (by decide)⟩

end BlazeKV
